import Mathlib

/-!
# Verification of gomosaic core algorithms

A shallow embedding of the gomosaic photomosaic library (Go) and proofs about
its specified behaviour.

Modelling conventions:

* Go `float64` values that only flow through comparisons and exact-result
  operations are modelled as exact rationals (`ℚ`); the special value NaN and
  +Inf produced by `0/0` resp. `x/0` are modelled by an explicit `GoFloat`
  carrier where needed (Canberra metric).
* Go slices are Lean `List`s; `s[i]` is `List.getD i` (reads of valid indices),
  `s[i] = v` is `List.set`.  An out-of-range write on a nil slice — a Go
  runtime panic — is modelled as `Except.error`.
* Go `int`/`uint` arithmetic never overflows in the modelled code paths
  (arguments are bounded well below 2^63); casts to `uint8` are made explicit
  with `% 256`.
* Concurrency: in every modelled parallel stage each matrix cell is written by
  exactly one job and jobs touch disjoint cells, so the stage is modelled by
  its sequential (row-major) execution, which computes the same matrix.
-/

namespace Gomosaic

/-- `ImageID` is a Go `int`; `NoImageID = -1` is the "none" sentinel
(`image.go` / `utils.go`). -/
abbrev ImageID := Int

/-- The sentinel id meaning "no image selected". -/
def NoImageID : ImageID := -1

/-! ## Image heap (`compose.go`)

`ImageHeapEntry` is a pair of an image id and a float64 score.  The score only
ever flows through `>` comparisons, so it is modelled as `ℚ`. -/

/-- One entry of an image heap: an image id together with its metric value
(`compose.go`, `ImageHeapEntry`). -/
structure ImageHeapEntry where
  image : ImageID
  value : ℚ
  deriving DecidableEq, Repr, Inhabited

/-- `imageHeapInterface.Less i j` is `h[i].Value > h[j].Value`, so Go's
`container/heap` (a min-heap w.r.t. `Less`) behaves as a max-heap on `value`. -/
def entryLess (a b : ImageHeapEntry) : Prop := b.value < a.value

instance : DecidableRel entryLess := fun a b => inferInstanceAs (Decidable (b.value < a.value))

/-- The value stored at index `i` (reads of `h[i].Value`); out-of-range reads
never happen in the modelled code, the default is irrelevant. -/
def valAt (l : List ImageHeapEntry) (i : ℕ) : ℚ :=
  (l.getD i default).value

/-- `h.Swap(i, j)` from `compose.go`: exchange two slice positions. -/
def swapAt (l : List ImageHeapEntry) (i j : ℕ) : List ImageHeapEntry :=
  (l.set i (l.getD j default)).set j (l.getD i default)

/-- Go `container/heap.up` (sift-up), fuel-indexed for structural recursion;
`upFuel f l j` equals the real loop whenever `j < f`.  The loop body:
`i := (j-1)/2; if i == j || !h.Less(j, i) break; h.Swap(i, j); j = i`. -/
def upFuel : ℕ → List ImageHeapEntry → ℕ → List ImageHeapEntry
  | 0, l, _ => l
  | f + 1, l, j =>
    let i := (j - 1) / 2
    if i = j ∨ ¬ entryLess (l.getD j default) (l.getD i default) then l
    else upFuel f (swapAt l i j) i

/-- Go `container/heap.down` (sift-down) with boundary `n`, fuel-indexed;
`downFuel f l i n` equals the real loop whenever `n - i ≤ f`. -/
def downFuel : ℕ → List ImageHeapEntry → ℕ → ℕ → List ImageHeapEntry
  | 0, l, _, _ => l
  | f + 1, l, i, n =>
    let j1 := 2 * i + 1
    if n ≤ j1 then l
    else
      let j := if j1 + 1 < n ∧ entryLess (l.getD (j1 + 1) default) (l.getD j1 default)
               then j1 + 1 else j1
      if ¬ entryLess (l.getD j default) (l.getD i default) then l
      else downFuel f (swapAt l i j) j n

/-- Go `heap.Push`: append the entry, then sift it up from the last slot. -/
def heapPush (l : List ImageHeapEntry) (e : ImageHeapEntry) : List ImageHeapEntry :=
  upFuel (l.length + 1) (l ++ [e]) l.length

/-- Go `heap.Pop` (returned element, remaining slice): swap the root with the
last slot, sift the new root down over the first `n = len-1` slots and cut off
the last slot. -/
def heapPop (l : List ImageHeapEntry) : ImageHeapEntry × List ImageHeapEntry :=
  let n := l.length - 1
  let l2 := downFuel l.length (swapAt l 0 n) 0 n
  (l2.getD n default, l2.take n)

/-- The truncation loop in `ImageHeap.AddEntry`:
`for h.interf.Len() > h.bound { heap.Pop(h.interf) }` (fuel-indexed;
`l.length` fuel always suffices because every `Pop` shortens the slice). -/
def popLoopFuel : ℕ → Int → List ImageHeapEntry → List ImageHeapEntry
  | 0, _, l => l
  | f + 1, b, l => if b < (l.length : Int) then popLoopFuel f b (heapPop l).2 else l

/-- The truncation loop of `ImageHeap.AddEntry` with sufficient fuel. -/
def popLoop (b : Int) (l : List ImageHeapEntry) : List ImageHeapEntry :=
  popLoopFuel l.length b l

/-- The pop-all loop of `ImageHeap.GetView` collecting the successive
`heap.Pop` results in pop order (largest scores first). -/
def popAllFuel : ℕ → List ImageHeapEntry → List ImageHeapEntry
  | 0, _ => []
  | f + 1, l =>
    if l.length = 0 then []
    else (heapPop l).1 :: popAllFuel f (heapPop l).2

/-- `ImageHeap.GetView` (`compose.go`): pop everything from a copy and store
result `i` at output slot `n-i-1`, i.e. the reversed pop order
(ascending scores). -/
def getViewList (l : List ImageHeapEntry) : List ImageHeapEntry :=
  (popAllFuel l.length l).reverse

/-- The mutable state of a Go `ImageHeap`: either a live backing slice or the
`nil` slice that `AddEntry` installs when `bound == 0`
(`h.interf = nil` in `compose.go`). -/
inductive HeapState where
  | live (l : List ImageHeapEntry)
  | nilInterf
  deriving DecidableEq, Repr

/-- `NewImageHeap(bound)`: fresh empty backing slice. -/
def newImageHeap : HeapState := HeapState.live []

/-- `ImageHeap.AddEntry` (`compose.go`): `heap.Push`, then
`switch { case bound == 0: h.interf = nil; case bound >= 1: pop while too
large }`.  Pushing onto the `nil` backing slice — which is what a second
`AddEntry` after a `bound == 0` add does — is a Go nil-dereference panic,
modelled as `Except.error`. -/
def addEntry (bound : Int) (st : HeapState) (e : ImageHeapEntry) :
    Except String HeapState :=
  match st with
  | HeapState.nilInterf => Except.error "runtime error: invalid memory address or nil pointer dereference"
  | HeapState.live l =>
    let l2 := heapPush l e
    if bound = 0 then Except.ok HeapState.nilInterf
    else if 1 ≤ bound then Except.ok (HeapState.live (popLoop bound l2))
    else Except.ok (HeapState.live l2)

/-- `ImageHeap.GetView`; calling `h.interf.Len()` on the `nil` interface
pointer is a Go panic, modelled as `Except.error`. -/
def getView (st : HeapState) : Except String (List ImageHeapEntry) :=
  match st with
  | HeapState.nilInterf => Except.error "runtime error: invalid memory address or nil pointer dereference"
  | HeapState.live l => Except.ok (getViewList l)

/-- Run a sequence of `AddEntry` calls on a heap with the given bound,
starting from `NewImageHeap(bound)`. -/
def runAdds (bound : Int) (es : List ImageHeapEntry) : Except String HeapState :=
  es.foldlM (addEntry bound) newImageHeap

/-! ## Canberra distance (`metric.go`)

`CanberraDistance` runs on `float64` vectors.  The inputs are modelled as
exact rationals; the only float special values reachable from finite inputs
are the `0/0 = NaN` and `x/0 = +Inf` results of the per-index division, made
explicit by the `GoFloat` carrier.  (Rounding of `float64` arithmetic is
abstracted to exact arithmetic; it does not affect the NaN behaviour at
issue.) -/

/-- A `float64` value reachable in `CanberraDistance`: NaN, +Inf or a finite
value. -/
inductive GoFloat where
  | nan
  | inf
  | fin (x : ℚ)
  deriving DecidableEq, Repr

/-- `float64` addition restricted to NaN/+Inf/finite (Go: NaN propagates,
+Inf absorbs finite values). -/
def goAdd : GoFloat → GoFloat → GoFloat
  | GoFloat.nan, _ => GoFloat.nan
  | _, GoFloat.nan => GoFloat.nan
  | GoFloat.inf, _ => GoFloat.inf
  | _, GoFloat.inf => GoFloat.inf
  | GoFloat.fin a, GoFloat.fin b => GoFloat.fin (a + b)

/-- `float64` division of a non-negative finite numerator by a non-negative
finite denominator: `0/0 = NaN`, `x/0 = +Inf` for `x > 0` (IEEE 754, as in
Go). -/
def goDivNonneg (a b : ℚ) : GoFloat :=
  if b = 0 then (if a = 0 then GoFloat.nan else GoFloat.inf) else GoFloat.fin (a / b)

/-- `CanberraDistance` (`metric.go`): `res += |p[i]-q[i]| / (|p[i]|+|q[i]|)`
over all indices, starting from `0.0`, with NO guard for the `0/0` case. -/
def CanberraDistance (p q : List ℚ) : GoFloat :=
  (p.zip q).foldl
    (fun res pq => goAdd res (goDivNonneg |pq.1 - pq.2| (|pq.1| + |pq.2|)))
    (GoFloat.fin 0)

/-! ## Colour quantisation (`image.go`) -/

/-- `QuantizeFactor` (`image.go`): number of values per 8-bit component. -/
def QuantizeFactor : ℕ := 256

/-- `QuantizeC` (`image.go`): `uint8((uint(val) * k) / QuantizeFactor)`.
The `uint8` cast is the explicit `% 256`; `uint` arithmetic cannot overflow
for the modelled ranges (`val ≤ 255`, `k ≤ 256`). -/
def QuantizeC (val k : ℕ) : ℕ := (val * k / QuantizeFactor) % 256

/-- `RGBID` (`image.go`): the packed bin index `r + k*g + k²*b` (no overflow:
the result is below `k³ ≤ 2^24`). -/
def RGBID (r g b k : ℕ) : ℕ := r + k * g + k * k * b

/-! ## Rectangles and the fixed-tile-count divider (`divide.go`) -/

/-- Go `image.Rectangle` (min/max corner coordinates). -/
structure Rect where
  minX : ℤ
  minY : ℤ
  maxX : ℤ
  maxY : ℤ
  deriving DecidableEq, Repr

/-- Go `image.Rect(x0, y0, x1, y1)`: swaps each axis if given in the wrong
order, so the result is always well-formed. -/
def mkRect (x0 y0 x1 y1 : ℤ) : Rect :=
  { minX := if x1 < x0 then x1 else x0
    maxX := if x1 < x0 then x0 else x1
    minY := if y1 < y0 then y1 else y0
    maxY := if y1 < y0 then y0 else y1 }

/-- `Rectangle.Empty()`: no points inside. -/
def Rect.IsEmpty (r : Rect) : Prop := r.maxX ≤ r.minX ∨ r.maxY ≤ r.minY

instance (r : Rect) : Decidable r.IsEmpty :=
  inferInstanceAs (Decidable (_ ∨ _))

/-- `Rectangle.Dx()`. -/
def Rect.Dx (r : Rect) : ℤ := r.maxX - r.minX

/-- `Rectangle.Dy()`. -/
def Rect.Dy (r : Rect) : ℤ := r.maxY - r.minY

/-- The point `(x, y)` lies in the rectangle (Go's half-open convention:
`Min ≤ p < Max` on both axes). -/
def Rect.memPt (r : Rect) (x y : ℤ) : Prop :=
  r.minX ≤ x ∧ x < r.maxX ∧ r.minY ≤ y ∧ y < r.maxY

instance (r : Rect) (x y : ℤ) : Decidable (r.memPt x y) :=
  inferInstanceAs (Decidable (_ ∧ _))

/-- `FixedNumDivider` (`divide.go`): divide into `numX × numY` tiles;
`cut` selects the remainder policy.  (Both counts are non-negative in every
modelled scenario; a negative count would make Go's `make` panic.) -/
structure FixedNumDivider where
  numX : ℕ
  numY : ℕ
  cut : Bool
  deriving DecidableEq, Repr

/-- The tile width computed in `FixedNumDivider.Divide`:
`tileWidth := 1; if NumX > 0 { tileWidth = imgWidth / NumX };
if tileWidth <= 0 { tileWidth = 1 }` (and the same for the height). -/
def fixedNumTileDim (imgDim : ℤ) (num : ℕ) : ℤ :=
  let t : ℤ := if 0 < num then imgDim / (num : ℤ) else 1
  if t ≤ 0 then 1 else t

/-- `FixedNumDivider.outerBound` (`divide.go`): in the last row/column the
far edge is the raw value when cutting, the image bound otherwise. -/
def FixedNumDivider.outerBound (d : FixedNumDivider) (divisionNum index : ℕ)
    (imgBound value : ℤ) : ℤ :=
  if index + 1 = divisionNum then (if d.cut then value else imgBound) else value

/-- `FixedNumDivider.Divide` (`divide.go`): the `numY × numX` matrix of tile
rectangles (row-major, indexed `[y][x]`); empty input gives `nil`. -/
def FixedNumDivider.Divide (d : FixedNumDivider) (bounds : Rect) :
    List (List Rect) :=
  if bounds.IsEmpty then []
  else
    let tileWidth := fixedNumTileDim bounds.Dx d.numX
    let tileHeight := fixedNumTileDim bounds.Dy d.numY
    (List.range d.numY).map (fun (i : ℕ) =>
      (List.range d.numX).map (fun (j : ℕ) =>
        let x0 := bounds.minX + (j : ℤ) * tileWidth
        let y0 := bounds.minY + (i : ℤ) * tileHeight
        let x1 := d.outerBound d.numX j bounds.maxX (x0 + tileWidth)
        let y1 := d.outerBound d.numY i bounds.maxY (y0 + tileHeight)
        mkRect x0 y0 x1 y1))

/-- A point lies in (the union of) a tile division. -/
def inDivision (dv : List (List Rect)) (x y : ℤ) : Prop :=
  ∃ row ∈ dv, ∃ r ∈ row, r.memPt x y

instance (dv : List (List Rect)) (x y : ℤ) : Decidable (inDivision dv x y) :=
  inferInstanceAs (Decidable (∃ _ ∈ dv, _))

/-! ## The minimizer selector (`select.go`)

`ImageMetricMinimizer.SelectImages`: each tile cell is initialised to
`(NoImageID, math.MaxFloat64)` and one worker scans all database ids in
ascending order, updating on a strictly smaller metric value.  Each matrix
cell is written by exactly one job, so the per-tile loop below is the exact
per-cell computation.  Metric values are `float64`, modelled as `ℚ`; a
`Compare` error (log-and-skip) is `none`. -/

/-- `math.MaxFloat64` as an exact rational: `(2 - 2⁻⁵²)·2¹⁰²³`. -/
def maxFloat64 : ℚ := 2 ^ 1024 - 2 ^ 971

/-- The candidate scan of `SelectImages` for one tile: `imageID` runs from 0
upward; an errored comparison is skipped; `dist < bestValues[i][j]` updates
both the best value and the result id. -/
def minimizeLoop (best : ImageID) (bestVal : ℚ) (idx : ℤ) :
    List (Option ℚ) → ImageID × ℚ
  | [] => (best, bestVal)
  | none :: rest => minimizeLoop best bestVal (idx + 1) rest
  | some d :: rest =>
    if d < bestVal then minimizeLoop idx d (idx + 1) rest
    else minimizeLoop best bestVal (idx + 1) rest

/-- The image id selected for one tile, given the per-candidate metric
outcomes (`none` = comparison error, skipped). -/
def minimizeTile (scores : List (Option ℚ)) : ImageID :=
  (minimizeLoop NoImageID maxFloat64 0 scores).1

/-- `ImageMetricMinimizer.SelectImages` as a whole: one `minimizeTile` per
cell of the tile matrix (each cell is written exactly once by its job). -/
def SelectImagesMinimizer (grid : List (List (List (Option ℚ)))) :
    List (List ImageID) :=
  grid.map (fun row => row.map minimizeTile)

/-! ## The random heap selector (`variety.go`)

`RandomHeapSelector.Select` allocates `res := make([][]ImageID, len(dist))`
(every row a nil slice), then per row builds `colDist` and only assigns
`res[i] = colDist` AFTER the inner loop.  Inside the loop an empty heap view
executes `res[i][j] = NoImageID` — an index-out-of-range panic on the still
nil row, modelled as `Except.error`.  The shared `rand.Rand` is modelled by
the sequence `g 0, g 1, …` of its `Intn` draws (`Intn n` returns a value in
`[0, n)`, modelled as `g cnt % n`). -/

/-- One row of `RandomHeapSelector.Select`; `cnt` counts the `Intn` calls made
so far. -/
def randomHeapSelectRow (g : ℕ → ℕ) :
    List (List ImageHeapEntry) → ℕ → Except String (List ImageID × ℕ)
  | [], cnt => Except.ok ([], cnt)
  | view :: rest, cnt =>
    if view.length = 0 then
      Except.error "runtime error: index out of range [0] with length 0"
    else
      match randomHeapSelectRow g rest (cnt + 1) with
      | Except.ok (tail, c2) =>
        Except.ok ((view.getD (g cnt % view.length) default).image :: tail, c2)
      | Except.error e => Except.error e

/-- `RandomHeapSelector.Select` over all rows of heap views. -/
def randomHeapSelect (g : ℕ → ℕ) :
    List (List (List ImageHeapEntry)) → ℕ →
    Except String (List (List ImageID) × ℕ)
  | [], cnt => Except.ok ([], cnt)
  | row :: rest, cnt =>
    match randomHeapSelectRow g row cnt with
    | Except.error e => Except.error e
    | Except.ok (r, c2) =>
      match randomHeapSelect g rest c2 with
      | Except.error e => Except.error e
      | Except.ok (rs, c3) => Except.ok (r :: rs, c3)

/-! ## `DivideImage` error aggregation (`divide.go`)

The driver reads one outcome per job from the error channel and runs
`if nextErr != nil && err != nil { err = nextErr }` — with `err` starting as
`nil`.  The fold below is that loop over the arrival order of the outcomes
(`none` = a nil error). -/

/-- One driver step of `DivideImage`'s error collection. -/
def divideImageErrStep (err next : Option String) : Option String :=
  if next ≠ none ∧ err ≠ none then next else err

/-- The error value `DivideImage` returns, as a function of the per-job
outcomes in arrival order. -/
def divideImageErr (errs : List (Option String)) : Option String :=
  errs.foldl divideImageErrStep none

/-! ## The command tokenizer (`commands.go`)

`ParseCommand` is a five-state automaton over the runes of the input.  The
recursion consumes exactly one rune per step (state changes are parameters),
`cur` is `currentArg` and `res` the emitted tokens; `none` is the
`"Error parsing command line"` outcome. -/

/-- The automaton of `ParseCommand`; states: 0 outside a token, 1 inside an
unquoted token, 2 escape-from-unquoted, 3 inside a quoted token, 4
escape-from-quoted.  At end of input states 0/1 succeed (a non-empty
`currentArg` is emitted), the others fail. -/
def pcAux : List Char → ℕ → List Char → List (List Char) →
    Option (List (List Char))
  | [], state, cur, res =>
    if state = 0 ∨ state = 1 then
      some (if 0 < cur.length then res ++ [cur] else res)
    else none
  | ch :: rest, state, cur, res =>
    if state = 0 then
      if ch = ' ' then pcAux rest 0 cur res
      else if ch = '\\' then pcAux rest 2 cur res
      else if ch = '"' then pcAux rest 3 cur res
      else pcAux rest 1 (cur ++ [ch]) res
    else if state = 1 then
      if ch = ' ' then pcAux rest 0 [] (res ++ [cur])
      else if ch = '\\' then pcAux rest 2 cur res
      else if ch = '"' then none
      else pcAux rest 1 (cur ++ [ch]) res
    else if state = 2 then
      if ch = '\\' ∨ ch = '"' then pcAux rest 1 (cur ++ [ch]) res else none
    else if state = 3 then
      if ch = '"' then pcAux rest 0 [] (res ++ [cur])
      else if ch = '\\' then pcAux rest 4 cur res
      else pcAux rest 3 (cur ++ [ch]) res
    else if state = 4 then
      if ch = '\\' ∨ ch = '"' then pcAux rest 3 (cur ++ [ch]) res else none
    else none

/-- `ParseCommand` (`commands.go`) on the rune list of the input. -/
def ParseCommand (s : List Char) : Option (List (List Char)) :=
  pcAux s 0 [] []

/-- Escape one character for re-quoting: `"` and `\` get a leading backslash. -/
def escapeChar (c : Char) : List Char :=
  if c = '"' ∨ c = '\\' then ['\\', c] else [c]

/-- Escape every embedded `"` and `\` of a token. -/
def escapeToken (t : List Char) : List Char :=
  (t.map escapeChar).flatten

/-- Join escaped tokens with single spaces (the round-trip encoding the spec
describes). -/
def joinTokens : List (List Char) → List Char
  | [] => []
  | [t] => escapeToken t
  | t :: ts => escapeToken t ++ ' ' :: joinTokens ts

/-! ## Descriptor file names (`helpers.go`) -/

/-- The extension handling of `LCHFileName`:
`if strings.HasPrefix(ext, ".") { ext = ext[1:] }`. -/
def stripLeadingDot (ext : String) : String :=
  match ext.data with
  | '.' :: rest => String.mk rest
  | _ => ext

/-- `LCHFileName(k, schemeSize, ext)` (`helpers.go`): strips a leading dot
from `ext` and formats `fmt.Sprintf("lch-%d-%d.%s", k, schemeSize, ext)` —
note the argument order. -/
def LCHFileName (k schemeSize : ℕ) (ext : String) : String :=
  "lch-" ++ toString k ++ "-" ++ toString schemeSize ++ "." ++ stripLeadingDot ext

/-- The file name the spec (and the Go function's own doc comment) prescribes:
`lch-<scheme_size>-<k>.<ext>`.  Follows the spec's words, for comparison with
`LCHFileName`. -/
def LCHFileNameSpec (k schemeSize : ℕ) (ext : String) : String :=
  "lch-" ++ toString schemeSize ++ "-" ++ toString k ++ "." ++ stripLeadingDot ext

/-! ### Basic facts about `swapAt` -/

theorem getD_set_self {α : Type} {l : List α} {i : ℕ} {a d : α} (h : i < l.length) :
    (l.set i a).getD i d = a := by
  simp [List.getD_eq_getElem?_getD, List.getElem?_set_self h]

theorem getD_set_ne {α : Type} {l : List α} {i j : ℕ} {a d : α} (h : i ≠ j) :
    (l.set i a).getD j d = l.getD j d := by
  simp [List.getD_eq_getElem?_getD, List.getElem?_set_ne h]

theorem length_swapAt (l : List ImageHeapEntry) (i j : ℕ) :
    (swapAt l i j).length = l.length := by
  simp [swapAt]

theorem getD_swapAt_right (l : List ImageHeapEntry) {i j : ℕ} (hj : j < l.length) :
    (swapAt l i j).getD j default = l.getD i default := by
  unfold swapAt
  exact getD_set_self (by simpa using hj)

theorem getD_swapAt_left (l : List ImageHeapEntry) {i j : ℕ} (hi : i < l.length)
    (hne : i ≠ j) : (swapAt l i j).getD i default = l.getD j default := by
  unfold swapAt
  rw [getD_set_ne (Ne.symm hne), getD_set_self hi]

theorem getD_swapAt_other (l : List ImageHeapEntry) {i j k : ℕ}
    (h1 : k ≠ i) (h2 : k ≠ j) : (swapAt l i j).getD k default = l.getD k default := by
  unfold swapAt
  rw [getD_set_ne (Ne.symm h2), getD_set_ne (Ne.symm h1)]

theorem set_getD_self {α : Type} {l : List α} {i : ℕ} {d : α} (h : i < l.length) :
    l.set i (l.getD i d) = l := by
  apply List.ext_getElem?
  intro k
  by_cases hk : k = i
  · subst hk
    rw [List.getElem?_set_self h]
    simp [List.getD_eq_getElem?_getD, List.getElem?_eq_getElem h]
  · exact List.getElem?_set_ne (fun he => hk he.symm)

theorem swapAt_self (l : List ImageHeapEntry) {i : ℕ} (h : i < l.length) :
    swapAt l i i = l := by
  unfold swapAt
  rw [set_getD_self h, set_getD_self h]

/-- Swapping the head with position `k+1` of the tail is a permutation. -/
theorem cons_set_perm (t : List ImageHeapEntry) :
    ∀ (k : ℕ) (a : ImageHeapEntry), k < t.length →
      (t.getD k default :: t.set k a).Perm (a :: t) := by
  induction t with
  | nil => intro k a hk; simp at hk
  | cons b t2 ih =>
    intro k a hk
    cases k with
    | zero => simpa using List.Perm.swap a b t2
    | succ k2 =>
      have hk2 : k2 < t2.length := by simpa using hk
      have step : (t2.getD k2 default :: t2.set k2 a).Perm (a :: t2) := ih k2 a hk2
      have p1 : (t2.getD k2 default :: b :: t2.set k2 a).Perm
          (b :: t2.getD k2 default :: t2.set k2 a) := List.Perm.swap _ _ _
      have p2 : (b :: t2.getD k2 default :: t2.set k2 a).Perm (b :: a :: t2) := step.cons b
      have p3 : (b :: a :: t2).Perm (a :: b :: t2) := List.Perm.swap _ _ _
      simpa using (p1.trans p2).trans p3

theorem swapAt_perm_lt (l : List ImageHeapEntry) :
    ∀ (i j : ℕ), i < j → j < l.length → (swapAt l i j).Perm l := by
  induction l with
  | nil => intro i j _ hj; simp at hj
  | cons a t ih =>
    intro i j hij hj
    cases i with
    | zero =>
      obtain ⟨j2, rfl⟩ : ∃ j2, j = j2 + 1 := ⟨j - 1, by omega⟩
      have hj2 : j2 < t.length := by simpa using hj
      have : swapAt (a :: t) 0 (j2 + 1) = t.getD j2 default :: t.set j2 a := by
        simp only [swapAt, List.getD_cons_succ, List.set_cons_zero, List.set_cons_succ,
          List.getD_cons_zero]
      rw [this]
      exact cons_set_perm t j2 a hj2
    | succ i2 =>
      obtain ⟨j2, rfl⟩ : ∃ j2, j = j2 + 1 := ⟨j - 1, by omega⟩
      have : swapAt (a :: t) (i2 + 1) (j2 + 1) = a :: swapAt t i2 j2 := by
        simp only [swapAt, List.getD_cons_succ, List.set_cons_succ]
      rw [this]
      exact (ih i2 j2 (by omega) (by simpa using hj)).cons a

theorem swapAt_comm (l : List ImageHeapEntry) {i j : ℕ} (h : i ≠ j) :
    swapAt l i j = swapAt l j i := by
  unfold swapAt
  exact List.set_comm _ _ _ h

theorem swapAt_perm (l : List ImageHeapEntry) {i j : ℕ} (hi : i < l.length)
    (hj : j < l.length) : (swapAt l i j).Perm l := by
  rcases lt_trichotomy i j with h | h | h
  · exact swapAt_perm_lt l i j h hj
  · subst h; rw [swapAt_self l hi]
  · rw [swapAt_comm l (by omega)]
    exact swapAt_perm_lt l j i h hi

/-! ### The binary max-heap invariant and sift-up / sift-down correctness -/

/-- The `container/heap` shape invariant restricted to the first `n` slots
(max-heap on `value`): every non-root node is at most its parent `(c-1)/2`. -/
def IsHeapN (l : List ImageHeapEntry) (n : ℕ) : Prop :=
  ∀ c, 0 < c → c < n → valAt l c ≤ valAt l ((c - 1) / 2)

/-- The heap invariant on the whole backing slice. -/
def IsHeap (l : List ImageHeapEntry) : Prop := IsHeapN l l.length

theorem parent_lt {j : ℕ} (h : 0 < j) : (j - 1) / 2 < j := by omega

theorem child_cases {i c : ℕ} (h : (c - 1) / 2 = i) (hc : 0 < c) :
    c = 2 * i + 1 ∨ c = 2 * i + 2 := by omega

/-- Invariant of the sift-up loop at position `j`: every parent/child pair not
involving `j` as the child is ordered, and the children of `j` are already at
most `j`'s parent. -/
def UpInv (l : List ImageHeapEntry) (j : ℕ) : Prop :=
  (∀ c, 0 < c → c < l.length → c ≠ j → valAt l c ≤ valAt l ((c - 1) / 2)) ∧
  (0 < j → ∀ c, 0 < c → c < l.length → (c - 1) / 2 = j →
    valAt l c ≤ valAt l ((j - 1) / 2))

theorem upFuel_perm : ∀ (f : ℕ) (l : List ImageHeapEntry) (j : ℕ),
    j < f → j < l.length → (upFuel f l j).Perm l := by
  intro f
  induction f with
  | zero => intro l j hf _; omega
  | succ f2 ih =>
    intro l j hf hj
    unfold upFuel
    by_cases hbr : (j - 1) / 2 = j ∨
        ¬ entryLess (l.getD j default) (l.getD ((j - 1) / 2) default)
    · simp only [hbr, if_pos]
      exact List.Perm.refl l
    · simp only [hbr, if_neg, not_false_iff]
      have hj0 : 0 < j := by
        by_contra h0
        have : j = 0 := by omega
        subst this
        exact hbr (Or.inl rfl)
      have hilt : (j - 1) / 2 < j := parent_lt hj0
      have hswap : (swapAt l ((j - 1) / 2) j).Perm l :=
        swapAt_perm l (by omega) hj
      have hrec : (upFuel f2 (swapAt l ((j - 1) / 2) j) ((j - 1) / 2)).Perm
          (swapAt l ((j - 1) / 2) j) :=
        ih _ _ (by omega) (by rw [length_swapAt]; omega)
      exact hrec.trans hswap

theorem upFuel_isHeap : ∀ (f : ℕ) (l : List ImageHeapEntry) (j : ℕ),
    j < f → j < l.length → UpInv l j → IsHeap (upFuel f l j) := by
  intro f
  induction f with
  | zero => intro l j hf _ _; omega
  | succ f2 ih =>
    intro l j hf hj hinv
    obtain ⟨h1, h2⟩ := hinv
    unfold upFuel
    by_cases hbr : (j - 1) / 2 = j ∨
        ¬ entryLess (l.getD j default) (l.getD ((j - 1) / 2) default)
    · simp only [hbr, if_pos]
      rcases hbr with hjj | hle
      · -- `(j-1)/2 = j` forces `j = 0`; every non-root is covered by `h1`.
        have hj0 : j = 0 := by omega
        subst hj0
        intro c hc hclen
        exact h1 c hc hclen (by omega)
      · -- `val j ≤ val parent`: the pair at `j` is ordered as well.
        intro c hc hclen
        by_cases hcj : c = j
        · subst hcj
          have := not_lt.mp hle
          exact this
        · exact h1 c hc hclen hcj
    · simp only [hbr, if_neg, not_false_iff]
      set i := (j - 1) / 2 with hidef
      have hj0 : 0 < j := by
        by_contra h0
        have : j = 0 := by omega
        exact hbr (Or.inl (by omega))
      have hlt : valAt l i < valAt l j := by
        have : ¬ ((j - 1) / 2 = j ∨
            ¬ entryLess (l.getD j default) (l.getD ((j - 1) / 2) default)) := hbr
        push_neg at this
        exact this.2
      have hij : i < j := parent_lt hj0
      have hilen : i < l.length := by omega
      set l2 := swapAt l i j with hl2
      have hlen2 : l2.length = l.length := length_swapAt l i j
      have vi : valAt l2 i = valAt l j := by
        unfold valAt
        rw [hl2, getD_swapAt_left l hilen (by omega)]
      have vj : valAt l2 j = valAt l i := by
        unfold valAt
        rw [hl2, getD_swapAt_right l hj]
      have vother : ∀ k, k ≠ i → k ≠ j → valAt l2 k = valAt l k := by
        intro k hki hkj
        unfold valAt
        rw [hl2, getD_swapAt_other l hki hkj]
      apply ih l2 i (by omega) (by omega)
      constructor
      · -- first component of `UpInv l2 i`
        intro c hc hclen hci
        have hclen0 : c < l.length := by omega
        by_cases hcj : c = j
        · subst hcj
          have hpj : (c - 1) / 2 = i := rfl
          rw [hpj, vj, vi]
          exact le_of_lt hlt
        · by_cases hpc : (c - 1) / 2 = i
          · rw [hpc, vi, vother c hci hcj]
            have := h1 c hc hclen0 hcj
            rw [hpc] at this
            exact le_trans this (le_of_lt hlt)
          · by_cases hpcj : (c - 1) / 2 = j
            · rw [hpcj, vj, vother c hci hcj]
              have := h2 hj0 c hc hclen0 hpcj
              exact this
            · rw [vother c hci hcj, vother _ hpc hpcj]
              exact h1 c hc hclen0 hcj
      · -- second component: children of `i` are at most `i`'s parent
        intro hi0 c hc hclen hpc
        have hclen0 : c < l.length := by omega
        have hpi_ne_i : (i - 1) / 2 ≠ i := by
          have := parent_lt hi0
          omega
        have hpi_ne_j : (i - 1) / 2 ≠ j := by
          have := parent_lt hi0
          omega
        rw [vother _ hpi_ne_i hpi_ne_j]
        by_cases hcj : c = j
        · subst hcj
          rw [vj]
          exact h1 i hi0 hilen (by omega)
        · have hci : c ≠ i := by
            intro hcc
            subst hcc
            omega
          rw [vother c hci hcj]
          have hstep : valAt l c ≤ valAt l i := by
            have := h1 c hc hclen0 hcj
            rw [hpc] at this
            exact this
          exact le_trans hstep (h1 i hi0 hilen (by omega))

/-- `heap.Push` preserves the heap invariant. -/
theorem heapPush_isHeap (l : List ImageHeapEntry) (e : ImageHeapEntry)
    (h : IsHeap l) : IsHeap (heapPush l e) := by
  unfold heapPush
  apply upFuel_isHeap (l.length + 1) (l ++ [e]) l.length (by omega) (by simp)
  have hget : ∀ k, k < l.length → valAt (l ++ [e]) k = valAt l k := by
    intro k hk
    unfold valAt
    rw [List.getD_eq_getElem?_getD, List.getD_eq_getElem?_getD,
      List.getElem?_append_left hk]
  constructor
  · intro c hc hclen hcne
    have hc2 : c < l.length := by
      simp only [List.length_append, List.length_singleton] at hclen
      omega
    rw [hget c hc2, hget _ (by omega)]
    exact h c hc hc2
  · intro hj0 c hc hclen hpc
    have : c = 2 * l.length + 1 ∨ c = 2 * l.length + 2 := child_cases hpc hc
    simp only [List.length_append, List.length_singleton] at hclen
    omega

theorem heapPush_perm (l : List ImageHeapEntry) (e : ImageHeapEntry) :
    (heapPush l e).Perm (e :: l) := by
  unfold heapPush
  have h1 : (upFuel (l.length + 1) (l ++ [e]) l.length).Perm (l ++ [e]) :=
    upFuel_perm _ _ _ (by omega) (by simp)
  have h2 : (l ++ [e]).Perm (e :: l) := List.perm_append_singleton e l
  exact h1.trans h2

theorem heapPush_length (l : List ImageHeapEntry) (e : ImageHeapEntry) :
    (heapPush l e).length = l.length + 1 := by
  have := (heapPush_perm l e).length_eq
  simpa using this

/-- Invariant of the sift-down loop at position `i` with boundary `n`: every
parent/child pair below `n` whose parent is not `i` is ordered, and the
children of `i` are at most `i`'s parent. -/
def DownInv (l : List ImageHeapEntry) (i n : ℕ) : Prop :=
  (∀ c, 0 < c → c < n → (c - 1) / 2 ≠ i → valAt l c ≤ valAt l ((c - 1) / 2)) ∧
  (0 < i → ∀ c, 0 < c → c < n → (c - 1) / 2 = i →
    valAt l c ≤ valAt l ((i - 1) / 2))

theorem downFuel_perm : ∀ (f : ℕ) (l : List ImageHeapEntry) (i n : ℕ),
    n ≤ l.length → (downFuel f l i n).Perm l := by
  intro f
  induction f with
  | zero => intro l i n _; exact List.Perm.refl l
  | succ f2 ih =>
    intro l i n hn
    unfold downFuel
    by_cases hbr : n ≤ 2 * i + 1
    · simp only [hbr, if_pos]
      exact List.Perm.refl l
    · simp only [hbr, if_neg, not_false_iff]
      set j := if 2 * i + 1 + 1 < n ∧
          entryLess (l.getD (2 * i + 1 + 1) default) (l.getD (2 * i + 1) default)
        then 2 * i + 1 + 1 else 2 * i + 1 with hjdef
      by_cases hbr2 : ¬ entryLess (l.getD j default) (l.getD i default)
      · simp only [hbr2, if_pos]
        exact List.Perm.refl l
      · simp only [hbr2, if_neg, not_false_iff]
        have hjn : j < n := by
          rw [hjdef]
          split
          · omega
          · omega
        have hperm : (swapAt l i j).Perm l := swapAt_perm l (by omega) (by omega)
        exact (ih _ j n (by rw [length_swapAt]; omega)).trans hperm

theorem downFuel_getD_high : ∀ (f : ℕ) (l : List ImageHeapEntry) (i n k : ℕ),
    n ≤ k → (downFuel f l i n).getD k default = l.getD k default := by
  intro f
  induction f with
  | zero => intro l i n k _; rfl
  | succ f2 ih =>
    intro l i n k hk
    unfold downFuel
    by_cases hbr : n ≤ 2 * i + 1
    · rw [if_pos hbr]
    · rw [if_neg hbr]
      set j := if 2 * i + 1 + 1 < n ∧
          entryLess (l.getD (2 * i + 1 + 1) default) (l.getD (2 * i + 1) default)
        then 2 * i + 1 + 1 else 2 * i + 1 with hjdef
      by_cases hbr2 : ¬ entryLess (l.getD j default) (l.getD i default)
      · rw [if_pos hbr2]
      · rw [if_neg hbr2]
        have hjn : j < n := by
          rw [hjdef]
          split
          · omega
          · omega
        rw [ih _ j n k hk, getD_swapAt_other l (by omega) (by omega)]

theorem downFuel_isHeapN : ∀ (f : ℕ) (l : List ImageHeapEntry) (i n : ℕ),
    n - i ≤ f → n ≤ l.length → DownInv l i n → IsHeapN (downFuel f l i n) n := by
  intro f
  induction f with
  | zero =>
    intro l i n hf _ hinv
    have hni : n ≤ i := by omega
    intro c hc hcn
    by_cases hpc : (c - 1) / 2 = i
    · exfalso
      have : c = 2 * i + 1 ∨ c = 2 * i + 2 := child_cases hpc hc
      omega
    · exact hinv.1 c hc hcn hpc
  | succ f2 ih =>
    intro l i n hf hn hinv
    obtain ⟨h1, h2⟩ := hinv
    unfold downFuel
    by_cases hbr : n ≤ 2 * i + 1
    · simp only [hbr, if_pos]
      intro c hc hcn
      by_cases hpc : (c - 1) / 2 = i
      · exfalso
        have : c = 2 * i + 1 ∨ c = 2 * i + 2 := child_cases hpc hc
        omega
      · exact h1 c hc hcn hpc
    · simp only [hbr, if_neg, not_false_iff]
      set j := if 2 * i + 1 + 1 < n ∧
          entryLess (l.getD (2 * i + 1 + 1) default) (l.getD (2 * i + 1) default)
        then 2 * i + 1 + 1 else 2 * i + 1 with hjdef
      have hjn : j < n := by
        rw [hjdef]
        split
        · omega
        · omega
      have hij : i < j := by
        rw [hjdef]
        split
        · omega
        · omega
      have hpj : (j - 1) / 2 = i := by
        rw [hjdef]
        split
        · omega
        · omega
      -- `j` is the larger of the (at most two) children of `i` below `n`
      have hmaxchild : ∀ c, 0 < c → c < n → (c - 1) / 2 = i →
          valAt l c ≤ valAt l j := by
        intro c hc hcn hpc
        have hcc : c = 2 * i + 1 ∨ c = 2 * i + 2 := child_cases hpc hc
        rw [hjdef]
        split
        · rename_i hcond
          rcases hcc with hc1 | hc2
          · subst hc1
            exact le_of_lt hcond.2
          · subst hc2
            exact le_refl _
        · rename_i hcond
          rcases hcc with hc1 | hc2
          · subst hc1
            exact le_refl _
          · subst hc2
            have : ¬ entryLess (l.getD (2 * i + 1 + 1) default)
                (l.getD (2 * i + 1) default) := by
              intro hcl
              exact hcond ⟨by omega, hcl⟩
            exact not_lt.mp this
      by_cases hbr2 : ¬ entryLess (l.getD j default) (l.getD i default)
      · simp only [hbr2, if_pos]
        have hji : valAt l j ≤ valAt l i := not_lt.mp hbr2
        intro c hc hcn
        by_cases hpc : (c - 1) / 2 = i
        · rw [hpc]
          exact le_trans (hmaxchild c hc hcn hpc) hji
        · exact h1 c hc hcn hpc
      · simp only [hbr2, if_neg, not_false_iff]
        have hlt : valAt l i < valAt l j := not_not.mp hbr2
        set l2 := swapAt l i j with hl2
        have hlen2 : l2.length = l.length := length_swapAt l i j
        have vi : valAt l2 i = valAt l j := by
          unfold valAt
          rw [hl2, getD_swapAt_left l (by omega) (by omega)]
        have vj : valAt l2 j = valAt l i := by
          unfold valAt
          rw [hl2, getD_swapAt_right l (by omega)]
        have vother : ∀ k, k ≠ i → k ≠ j → valAt l2 k = valAt l k := by
          intro k hki hkj
          unfold valAt
          rw [hl2, getD_swapAt_other l hki hkj]
        apply ih l2 j n (by omega) (by omega)
        constructor
        · intro c hc hcn hpc
          by_cases hcj : c = j
          · subst hcj
            rw [hpj, vi, vj]
            exact le_of_lt hlt
          · by_cases hci : c = i
            · subst hci
              have hi0 : 0 < c := hc
              have hpii : (c - 1) / 2 ≠ c := by
                have := parent_lt hi0
                omega
              have hpij : (c - 1) / 2 ≠ j := by
                have := parent_lt hi0
                omega
              rw [vi, vother _ hpii hpij]
              exact h2 hi0 j (by omega) hjn hpj
            · by_cases hpci : (c - 1) / 2 = i
              · rw [hpci, vi, vother c hci hcj]
                exact hmaxchild c hc hcn hpci
              · rw [vother c hci hcj, vother _ hpci hpc]
                exact h1 c hc hcn hpci
        · intro hj0 c hc hcn hpc
          have hcbig : c = 2 * j + 1 ∨ c = 2 * j + 2 := child_cases hpc hc
          have hci : c ≠ i := by omega
          have hcj : c ≠ j := by omega
          rw [hpj, vi, vother c hci hcj]
          have := h1 c hc hcn (by omega)
          rw [hpc] at this
          exact this

/-- In a max-heap the root value dominates every slot. -/
theorem isHeapN_le_root (l : List ImageHeapEntry) (n : ℕ) (h : IsHeapN l n) :
    ∀ i, i < n → valAt l i ≤ valAt l 0 := by
  intro i
  induction i using Nat.strong_induction_on with
  | _ i ih =>
    intro hi
    cases Nat.eq_zero_or_pos i with
    | inl h0 => subst h0; exact le_refl _
    | inr h0 =>
      have hp := parent_lt h0
      exact le_trans (h i h0 hi) (ih _ hp (by omega))

theorem heapPop_length (l : List ImageHeapEntry) :
    (heapPop l).2.length = l.length - 1 := by
  unfold heapPop
  have hlen : (downFuel l.length (swapAt l 0 (l.length - 1)) 0 (l.length - 1)).length
      = l.length := by
    have := (downFuel_perm l.length (swapAt l 0 (l.length - 1)) 0 (l.length - 1)
      (by rw [length_swapAt]; omega)).length_eq
    rw [this, length_swapAt]
  simp [hlen]

/-- `heap.Pop` on a non-empty max-heap returns the root, and the remainder is
again a heap; popped element consed on the remainder is a permutation of the
input. -/
theorem heapPop_spec (l : List ImageHeapEntry) (hne : l ≠ []) (hh : IsHeap l) :
    (heapPop l).1 = l.getD 0 default ∧
    IsHeap (heapPop l).2 ∧
    ((heapPop l).1 :: (heapPop l).2).Perm l := by
  have hlpos : 0 < l.length := List.length_pos.mpr hne
  set n := l.length - 1 with hndef
  set s0 := swapAt l 0 n with hs0
  have hs0len : s0.length = l.length := length_swapAt l 0 n
  set l2 := downFuel l.length s0 0 n with hl2
  have hl2perm : l2.Perm s0 := downFuel_perm _ _ _ _ (by omega)
  have hl2len : l2.length = l.length := by rw [hl2perm.length_eq, hs0len]
  have hfst : (heapPop l).1 = l.getD 0 default := by
    show (downFuel l.length (swapAt l 0 (l.length - 1)) 0 (l.length - 1)).getD
        (l.length - 1) default = l.getD 0 default
    rw [downFuel_getD_high l.length _ 0 (l.length - 1) (l.length - 1) (le_refl _)]
    exact getD_swapAt_right l (by omega)
  have hheapN : IsHeapN l2 n := by
    apply downFuel_isHeapN l.length s0 0 n (by omega) (by omega)
    constructor
    · intro c hc hcn hpc
      have hcne0 : c ≠ 0 := by omega
      have hcnen : c ≠ n := by omega
      have hpne0 : (c - 1) / 2 ≠ 0 := hpc
      have hpcn : (c - 1) / 2 ≠ n := by
        have := parent_lt hc
        omega
      unfold valAt
      rw [hs0, getD_swapAt_other l hcne0 hcnen, getD_swapAt_other l hpne0 hpcn]
      exact hh c hc (by omega)
    · intro h0 _ _ _ _
      exact absurd h0 (by omega)
  refine ⟨hfst, ?_, ?_⟩
  · -- the remainder `l2.take n` is a heap
    show IsHeap (l2.take n)
    intro c hc hcn
    have hcn2 : c < n := by
      have : (l2.take n).length = n := by
        rw [List.length_take]
        omega
      omega
    have hget : ∀ k, k < n → valAt (l2.take n) k = valAt l2 k := by
      intro k hk
      unfold valAt
      rw [List.getD_eq_getElem?_getD, List.getD_eq_getElem?_getD,
        List.getElem?_take_of_lt hk]
    rw [hget c hcn2, hget _ (by have := parent_lt hc; omega)]
    exact hheapN c hc hcn2
  · -- popped element + remainder permute the original slice
    have hsplit : l2.take n ++ [l2.getD n default] = l2 := by
      have hlast : l2 ≠ [] := by
        intro hcon
        rw [hcon] at hl2len
        simp at hl2len
        omega
      have h1 : l2.dropLast = l2.take n := by
        rw [List.dropLast_eq_take, hl2len]
      have h2 : l2.getLast hlast = l2.getD n default := by
        rw [List.getLast_eq_getElem, List.getD_eq_getElem?_getD,
          List.getElem?_eq_getElem (by omega)]
        simp [hl2len]
      rw [← h1, ← h2]
      exact List.dropLast_append_getLast hlast
    have hperm1 : ((heapPop l).1 :: (heapPop l).2).Perm l2 := by
      show (l2.getD n default :: l2.take n).Perm l2
      have := @List.perm_middle _ (l2.getD n default) (l2.take n) []
      simp only [List.append_nil] at this
      rw [hsplit] at this
      exact this.symm
    exact hperm1.trans (hl2perm.trans (swapAt_perm l (by omega) (by omega)))

/-- Every element of a non-empty max-heap is at most the root entry's value. -/
theorem heap_root_max (l : List ImageHeapEntry) (hh : IsHeap l) :
    ∀ e ∈ l, e.value ≤ (l.getD 0 default).value := by
  intro e he
  obtain ⟨k, hk, hke⟩ := List.getElem_of_mem he
  have hv : valAt l k ≤ valAt l 0 := isHeapN_le_root l l.length hh k hk
  unfold valAt at hv
  rw [List.getD_eq_getElem?_getD, List.getD_eq_getElem?_getD,
    List.getElem?_eq_getElem hk] at hv
  rw [hke] at hv
  simpa [List.getD_eq_getElem?_getD] using hv

/-- The pop-all loop returns a permutation of the heap, ordered by descending
value (each popped root dominates everything that remains). -/
theorem popAllFuel_spec : ∀ (f : ℕ) (l : List ImageHeapEntry),
    l.length ≤ f → IsHeap l →
    (popAllFuel f l).Perm l ∧
    List.Pairwise (fun a b => b.value ≤ a.value) (popAllFuel f l) := by
  intro f
  induction f with
  | zero =>
    intro l hf _
    have : l = [] := List.length_eq_zero.mp (by omega)
    subst this
    exact ⟨List.Perm.refl [], List.Pairwise.nil⟩
  | succ f2 ih =>
    intro l hf hh
    unfold popAllFuel
    by_cases h0 : l.length = 0
    · rw [if_pos h0]
      have : l = [] := List.length_eq_zero.mp h0
      subst this
      exact ⟨List.Perm.refl [], List.Pairwise.nil⟩
    · rw [if_neg h0]
      have hne : l ≠ [] := fun hcon => h0 (by rw [hcon]; rfl)
      obtain ⟨hfst, hheap, hperm⟩ := heapPop_spec l hne hh
      have hlen : (heapPop l).2.length ≤ f2 := by
        rw [heapPop_length]
        omega
      obtain ⟨ihperm, ihpw⟩ := ih (heapPop l).2 hlen hheap
      constructor
      · exact (ihperm.cons (heapPop l).1).trans hperm
      · constructor
        · intro b hb
          have hbmem : b ∈ (heapPop l).2 := ihperm.mem_iff.mp hb
          have hbl : b ∈ l := hperm.mem_iff.mp (List.mem_cons_of_mem _ hbmem)
          rw [hfst]
          exact heap_root_max l hh b hbl
        · exact ihpw

/-- `ImageHeap.GetView` of a heap is a permutation of its contents sorted
ascending by value. -/
theorem getViewList_spec (l : List ImageHeapEntry) (hh : IsHeap l) :
    (getViewList l).Perm l ∧
    List.Pairwise (fun a b => a.value ≤ b.value) (getViewList l) := by
  obtain ⟨hperm, hpw⟩ := popAllFuel_spec l.length l (le_refl _) hh
  constructor
  · exact (List.reverse_perm _).trans hperm
  · rw [getViewList, List.pairwise_reverse]
    exact hpw

/-! ### Sorted-list combinatorics for the bounded (top-k) heap -/

/-- The multiset of scores stored in a backing slice. -/
def entryVals (l : List ImageHeapEntry) : Multiset ℚ :=
  (l : Multiset ImageHeapEntry).map ImageHeapEntry.value

/-- A multiset of scores listed in ascending order. -/
def msortQ (M : Multiset ℚ) : List ℚ := Multiset.sort (· ≤ ·) M

theorem msortQ_sorted (M : Multiset ℚ) : List.Sorted (· ≤ ·) (msortQ M) :=
  Multiset.sort_sorted _ M

theorem msortQ_coe (M : Multiset ℚ) : (msortQ M : Multiset ℚ) = M :=
  Multiset.sort_eq _ M

theorem msortQ_length (M : Multiset ℚ) : (msortQ M).length = Multiset.card M := by
  have := congrArg Multiset.card (msortQ_coe M)
  simpa using this

/-- A sorted list equals the canonical sort of its multiset. -/
theorem sorted_eq_msortQ (s : List ℚ) (M : Multiset ℚ)
    (hs : List.Sorted (· ≤ ·) s) (hM : (s : Multiset ℚ) = M) : s = msortQ M := by
  apply List.eq_of_perm_of_sorted _ hs (msortQ_sorted M)
  rw [← Multiset.coe_eq_coe, hM, msortQ_coe]

theorem msortQ_cons (v : ℚ) (M : Multiset ℚ) :
    msortQ (v ::ₘ M) = List.orderedInsert (· ≤ ·) v (msortQ M) := by
  symm
  apply sorted_eq_msortQ
  · exact (msortQ_sorted M).orderedInsert v _
  · have hp : (List.orderedInsert (· ≤ ·) v (msortQ M)).Perm (v :: msortQ M) :=
      List.perm_orderedInsert _ v _
    have h1 : ((List.orderedInsert (· ≤ ·) v (msortQ M) : List ℚ) : Multiset ℚ) =
        ((v :: msortQ M : List ℚ) : Multiset ℚ) := Multiset.coe_eq_coe.mpr hp
    rw [h1]
    show v ::ₘ (msortQ M : Multiset ℚ) = v ::ₘ M
    rw [msortQ_coe]

theorem dropLast_take {α : Type} (p : List α) (b : ℕ) (hb : b ≤ p.length) :
    (p.take b).dropLast = p.take (b - 1) := by
  rw [List.dropLast_eq_take, List.take_take, List.length_take]
  congr 1
  omega

/-- Inserting into a truncated ordered list and dropping the overflow agrees
with truncating the insertion into the full list. -/
theorem orderedInsert_take (v : ℚ) : ∀ (p : List ℚ) (b : ℕ), 1 ≤ b →
    b ≤ p.length →
    (List.orderedInsert (· ≤ ·) v (p.take b)).dropLast =
      (List.orderedInsert (· ≤ ·) v p).take b := by
  intro p
  induction p with
  | nil => intro b _ hb; simp at hb; omega
  | cons h t ih =>
    intro b hb1 hb2
    by_cases hv : v ≤ h
    · have e1 : List.orderedInsert (· ≤ ·) v (h :: t) = v :: h :: t := by
        simp [List.orderedInsert, hv]
      have e2 : List.orderedInsert (· ≤ ·) v ((h :: t).take b) =
          v :: (h :: t).take b := by
        obtain ⟨b2, rfl⟩ : ∃ b2, b = b2 + 1 := ⟨b - 1, by omega⟩
        simp [List.orderedInsert, hv]
      rw [e1, e2]
      have hne : (h :: t).take b ≠ [] := by
        obtain ⟨b2, rfl⟩ : ∃ b2, b = b2 + 1 := ⟨b - 1, by omega⟩
        simp
      rw [List.dropLast_cons_of_ne_nil hne, dropLast_take (h :: t) b (by simpa using hb2)]
      obtain ⟨b2, rfl⟩ : ∃ b2, b = b2 + 1 := ⟨b - 1, by omega⟩
      simp
    · have e1 : List.orderedInsert (· ≤ ·) v (h :: t) =
          h :: List.orderedInsert (· ≤ ·) v t := by
        simp [List.orderedInsert, hv]
      obtain ⟨b2, rfl⟩ : ∃ b2, b = b2 + 1 := ⟨b - 1, by omega⟩
      have e2 : List.orderedInsert (· ≤ ·) v ((h :: t).take (b2 + 1)) =
          h :: List.orderedInsert (· ≤ ·) v (t.take b2) := by
        simp [List.orderedInsert, hv]
      rw [e1, e2]
      cases Nat.eq_zero_or_pos b2 with
      | inl h0 =>
        subst h0
        simp [List.orderedInsert]
      | inr hpos =>
        have hne : List.orderedInsert (· ≤ ·) v (t.take b2) ≠ [] := by
          intro hcon
          have hlp : (List.orderedInsert (· ≤ ·) v (t.take b2)).Perm
              (v :: t.take b2) := List.perm_orderedInsert _ v _
          rw [hcon] at hlp
          exact absurd hlp.length_eq (by simp)
        rw [List.dropLast_cons_of_ne_nil hne, List.take_succ_cons]
        rw [ih b2 hpos (by simp at hb2; omega)]

/-- The last element of a sorted list bounds all of its members. -/
theorem sorted_le_getLast (s : List ℚ) (hs : List.Sorted (· ≤ ·) s)
    (hne : s ≠ []) : ∀ x ∈ s, x ≤ s.getLast hne := by
  intro x hx
  rcases List.mem_iff_getElem.mp hx with ⟨i, hi, rfl⟩
  rw [List.getLast_eq_getElem]
  rcases Nat.lt_or_ge i (s.length - 1) with hlt | hge
  · have := List.pairwise_iff_get.mp hs ⟨i, hi⟩ ⟨s.length - 1, by omega⟩
      (by simpa using hlt)
    simpa [List.get_eq_getElem] using this
  · have : i = s.length - 1 := by omega
    subst this
    exact le_refl _

/-- Erasing one occurrence of a maximal value from a multiset removes the last
element of its sorted listing. -/
theorem msortQ_erase_max (M : Multiset ℚ) (m : ℚ) (hm : m ∈ M)
    (hmax : ∀ x ∈ M, x ≤ m) :
    msortQ (M.erase m) = (msortQ M).dropLast := by
  have hMne : M ≠ 0 := by
    intro hcon
    rw [hcon] at hm
    simp at hm
  have hsne : msortQ M ≠ [] := by
    intro hcon
    have := congrArg List.length hcon
    rw [msortQ_length] at this
    simp at this
    exact hMne (by simpa using this)
  have hlast_mem : (msortQ M).getLast hsne ∈ M := by
    have h1 : (msortQ M).getLast hsne ∈ msortQ M := List.getLast_mem hsne
    have h2 : (msortQ M).getLast hsne ∈ (msortQ M : Multiset ℚ) := by
      exact_mod_cast h1
    rwa [msortQ_coe] at h2
  have hlast_max : ∀ x ∈ M, x ≤ (msortQ M).getLast hsne := by
    intro x hx
    have hx2 : x ∈ msortQ M := by
      rw [← Multiset.mem_coe, msortQ_coe]
      exact hx
    exact sorted_le_getLast (msortQ M) (msortQ_sorted M) hsne x hx2
  have heq : (msortQ M).getLast hsne = m :=
    le_antisymm (hmax _ hlast_mem) (hlast_max _ hm)
  symm
  apply sorted_eq_msortQ
  · exact List.Pairwise.sublist (List.dropLast_sublist _) (msortQ_sorted M)
  · have hcoe : (((msortQ M).dropLast ++ [m] : List ℚ) : Multiset ℚ) = M := by
      have hback := List.dropLast_append_getLast hsne
      rw [heq] at hback
      rw [hback, msortQ_coe]
    have hsplit2 : M = m ::ₘ ((msortQ M).dropLast : Multiset ℚ) := by
      conv_lhs => rw [← hcoe]
      have h3 : (((msortQ M).dropLast ++ [m] : List ℚ) : Multiset ℚ) =
          ((msortQ M).dropLast : Multiset ℚ) + (([m] : List ℚ) : Multiset ℚ) := by
        exact_mod_cast rfl
      rw [h3]
      have h4 : (([m] : List ℚ) : Multiset ℚ) = {m} := rfl
      rw [h4, add_comm, Multiset.singleton_add]
    have h5 : M.erase m = ((msortQ M).dropLast : Multiset ℚ) := by
      conv_lhs => rw [hsplit2]
      rw [Multiset.erase_cons_head]
    exact h5.symm

/-! ### The bounded heap keeps exactly the smallest scores seen so far -/

/-- The pure effect of `ImageHeap.AddEntry` on a live backing slice when the
bound is at least 1. -/
def addPure (b : Int) (l : List ImageHeapEntry) (e : ImageHeapEntry) :
    List ImageHeapEntry :=
  popLoop b (heapPush l e)

theorem addEntry_live_of_one_le (b : Int) (hb : 1 ≤ b) (l : List ImageHeapEntry)
    (e : ImageHeapEntry) :
    addEntry b (HeapState.live l) e = Except.ok (HeapState.live (addPure b l e)) := by
  show (if b = 0 then Except.ok HeapState.nilInterf
    else if 1 ≤ b then Except.ok (HeapState.live (popLoop b (heapPush l e)))
    else Except.ok (HeapState.live (heapPush l e))) =
    Except.ok (HeapState.live (addPure b l e))
  unfold addPure
  rw [if_neg (show ¬ b = 0 by omega), if_pos hb]

theorem popLoop_of_le (b : Int) (l : List ImageHeapEntry)
    (h : (l.length : Int) ≤ b) : popLoop b l = l := by
  unfold popLoop
  cases hl : l.length with
  | zero => rfl
  | succ f2 =>
    unfold popLoopFuel
    rw [if_neg (by omega)]

theorem popLoop_of_eq_succ (b : Int) (hb : 1 ≤ b) (l : List ImageHeapEntry)
    (h : (l.length : Int) = b + 1) : popLoop b l = (heapPop l).2 := by
  unfold popLoop
  have h2 : 2 ≤ l.length := by omega
  obtain ⟨f2, hf⟩ : ∃ f2, l.length = f2 + 1 := ⟨l.length - 1, by omega⟩
  rw [hf]
  unfold popLoopFuel
  rw [if_pos (by omega)]
  have hlen2 : (heapPop l).2.length = f2 := by
    rw [heapPop_length]
    omega
  obtain ⟨f3, hf3⟩ : ∃ f3, f2 = f3 + 1 := ⟨f2 - 1, by omega⟩
  rw [hf3]
  unfold popLoopFuel
  rw [if_neg (by rw [hlen2]; omega)]

theorem entryVals_of_perm (l l2 : List ImageHeapEntry) (h : l.Perm l2) :
    entryVals l = entryVals l2 := by
  unfold entryVals
  rw [Multiset.coe_eq_coe.mpr h]

theorem entryVals_cons (e : ImageHeapEntry) (l : List ImageHeapEntry) :
    entryVals (e :: l) = e.value ::ₘ entryVals l := by
  unfold entryVals
  rfl

theorem entryVals_card (l : List ImageHeapEntry) :
    Multiset.card (entryVals l) = l.length := by
  unfold entryVals
  simp

/-- Invariant carried through a sequence of `AddEntry` calls with bound
`b ≥ 1`: the slice is a heap and its sorted scores are exactly the `b`
smallest of all scores pushed so far. -/
def GoodHeap (b : Int) (l : List ImageHeapEntry) (P : Multiset ℚ) : Prop :=
  IsHeap l ∧ msortQ (entryVals l) = (msortQ P).take b.toNat

theorem goodHeap_length (b : Int) (l : List ImageHeapEntry) (P : Multiset ℚ)
    (h : GoodHeap b l P) : l.length = min b.toNat (Multiset.card P) := by
  have := congrArg List.length h.2
  rw [msortQ_length, entryVals_card, List.length_take, msortQ_length] at this
  exact this

theorem addPure_good (b : Int) (hb : 1 ≤ b) (l : List ImageHeapEntry)
    (e : ImageHeapEntry) (P : Multiset ℚ) (hg : GoodHeap b l P) :
    GoodHeap b (addPure b l e) (e.value ::ₘ P) := by
  obtain ⟨hheap, hsort⟩ := hg
  have hbnat : 1 ≤ b.toNat := by omega
  have hbcast : (b.toNat : Int) = b := Int.toNat_of_nonneg (by omega)
  have hlen := goodHeap_length b l P ⟨hheap, hsort⟩
  have hpushheap : IsHeap (heapPush l e) := heapPush_isHeap l e hheap
  have hpushlen : (heapPush l e).length = l.length + 1 := heapPush_length l e
  have hpushvals : entryVals (heapPush l e) = e.value ::ₘ entryVals l := by
    rw [entryVals_of_perm _ _ (heapPush_perm l e), entryVals_cons]
  by_cases hc : l.length + 1 ≤ b.toNat
  · -- still below the bound: no truncation happens
    have hNoPop : addPure b l e = heapPush l e := by
      unfold addPure
      apply popLoop_of_le
      rw [hpushlen]
      omega
    have hPsmall : Multiset.card P < b.toNat := by omega
    have hPeq : entryVals l = P := by
      have htake : (msortQ P).take b.toNat = msortQ P :=
        List.take_of_length_le (by rw [msortQ_length]; omega)
      rw [htake] at hsort
      have hcast := congrArg (fun s : List ℚ => (s : Multiset ℚ)) hsort
      simp only [msortQ_coe] at hcast
      exact hcast
    constructor
    · rw [hNoPop]; exact hpushheap
    · rw [hNoPop, hpushvals, hPeq]
      have hlenle : (msortQ (e.value ::ₘ P)).length ≤ b.toNat := by
        rw [msortQ_length, Multiset.card_cons]
        omega
      exact (List.take_of_length_le hlenle).symm
  · -- at the bound: push then pop exactly one maximal element
    have hleq : l.length = b.toNat := by omega
    have hPbig : b.toNat ≤ Multiset.card P := by omega
    set l1 := heapPush l e with hl1
    have hl1len : l1.length = b.toNat + 1 := by rw [hl1, hpushlen, hleq]
    have hOnePop : addPure b l e = (heapPop l1).2 := by
      unfold addPure
      rw [← hl1]
      apply popLoop_of_eq_succ b hb
      rw [hl1len]
      omega
    have hl1ne : l1 ≠ [] := by
      intro hcon
      rw [hcon] at hl1len
      simp at hl1len
    obtain ⟨hfst, hpop_heap, hpop_perm⟩ := heapPop_spec l1 hl1ne hpushheap
    have hroot_mem : (heapPop l1).1 ∈ l1 := by
      have : (heapPop l1).1 ∈ (heapPop l1).1 :: (heapPop l1).2 := List.mem_cons_self _ _
      exact hpop_perm.mem_iff.mp this
    have hvals1 : entryVals l1 = (heapPop l1).1.value ::ₘ entryVals (heapPop l1).2 := by
      rw [← entryVals_of_perm _ _ hpop_perm, entryVals_cons]
    have hvals2 : entryVals (heapPop l1).2 =
        (entryVals l1).erase (heapPop l1).1.value := by
      rw [hvals1, Multiset.erase_cons_head]
    have hmax : ∀ x ∈ entryVals l1, x ≤ (heapPop l1).1.value := by
      intro x hx
      obtain ⟨e2, he2, rfl⟩ := Multiset.mem_map.mp hx
      have he2l : e2 ∈ l1 := by exact_mod_cast he2
      rw [hfst]
      exact heap_root_max l1 hpushheap e2 he2l
    have hmem : (heapPop l1).1.value ∈ entryVals l1 := by
      apply Multiset.mem_map_of_mem
      exact_mod_cast hroot_mem
    constructor
    · rw [hOnePop]; exact hpop_heap
    · rw [hOnePop, hvals2, msortQ_erase_max _ _ hmem hmax]
      have hstep1 : msortQ (entryVals l1) =
          List.orderedInsert (· ≤ ·) e.value ((msortQ P).take b.toNat) := by
        rw [hl1, hpushvals, msortQ_cons, hsort]
      rw [hstep1, orderedInsert_take e.value (msortQ P) b.toNat hbnat
        (by rw [msortQ_length]; omega), ← msortQ_cons]

/-- Folding `AddEntry` over a list of pushes with bound `b ≥ 1` never panics
and maintains `GoodHeap`. -/
theorem foldAdds_good (b : Int) (hb : 1 ≤ b) :
    ∀ (es l : List ImageHeapEntry) (P : Multiset ℚ), GoodHeap b l P →
    ∃ l2, List.foldlM (addEntry b) (HeapState.live l) es =
        Except.ok (HeapState.live l2) ∧ GoodHeap b l2 (P + entryVals es) := by
  intro es
  induction es with
  | nil =>
    intro l P hg
    refine ⟨l, rfl, ?_⟩
    have : entryVals [] = 0 := rfl
    rw [this, add_zero]
    exact hg
  | cons e es2 ih =>
    intro l P hg
    have hstep := addPure_good b hb l e P hg
    obtain ⟨l2, hrun, hgood⟩ := ih (addPure b l e) (e.value ::ₘ P) hstep
    refine ⟨l2, ?_, ?_⟩
    · rw [List.foldlM_cons, addEntry_live_of_one_le b hb l e]
      exact hrun
    · rw [entryVals_cons]
      have : e.value ::ₘ P + entryVals es2 = P + (e.value ::ₘ entryVals es2) := by
        rw [Multiset.cons_add, Multiset.add_cons]
      rw [← this]
      exact hgood

theorem goodHeap_init (b : Int) : GoodHeap b [] 0 := by
  constructor
  · intro c hc hcn
    simp at hcn
  · have h1 : entryVals [] = 0 := rfl
    have h2 : msortQ (0 : Multiset ℚ) = [] := by
      simpa using msortQ_length 0
    rw [h1, h2]
    simp

/-! ## Claim theorems -/

/-- C1: the claim states that `DivideImage` returns the first observed
per-job error when any sub-image computation fails.  The code's collection
loop (`if nextErr != nil && err != nil`, with `err` starting out `nil`)
can never record an error: for EVERY sequence of per-job outcomes — in
particular one containing a failure — the returned error is `nil`.  This
theorem evaluates the code's aggregation and exhibits the divergence. -/
theorem C1_divideImage_error_never_recorded (errs : List (Option String)) :
    divideImageErr errs = none := by
  unfold divideImageErr
  induction errs with
  | nil => rfl
  | cons e rest ih =>
    have hstep : divideImageErrStep none e = none := by
      unfold divideImageErrStep
      simp
    rw [List.foldl_cons, hstep]
    exact ih

/-- C2: the claim states that a tile whose heap view is empty receives the
`NoImageID` sentinel.  In `RandomHeapSelector.Select` that branch executes
`res[i][j] = NoImageID` while `res[i]` is still the nil slice (`res[i] =
colDist` only runs after the inner loop), so the selector panics with an
index-out-of-range error instead: here evaluated on a 1×1 division whose
single heap is empty (e.g. an empty image database), for every random
sequence. -/
theorem C2_randomHeapSelector_empty_view_panics (g : ℕ → ℕ) :
    randomHeapSelect g [[getViewList []]] 0 =
      Except.error "runtime error: index out of range [0] with length 0" := rfl

/-- C5: the claim states that a heap with bound 0 accepts any number of
pushes and always views as empty.  The code sets `h.interf = nil` after the
first `AddEntry`, so the first push succeeds but a second push — and
`GetView` after any push — dereference the nil backing slice and panic. -/
theorem C5_imageHeap_bound_zero_panics :
    runAdds 0 [⟨0, 1⟩] = Except.ok HeapState.nilInterf ∧
    getView HeapState.nilInterf =
      Except.error "runtime error: invalid memory address or nil pointer dereference" ∧
    runAdds 0 [⟨0, 1⟩, ⟨1, 2⟩] =
      Except.error "runtime error: invalid memory address or nil pointer dereference" := by
  refine ⟨?_, rfl, ?_⟩ <;> rfl

/-- C6: the claim states that a `(0,0)` index contributes 0 to the Canberra
sum and the result is never NaN on non-negative inputs.  The code has no
`0/0` guard: on `p = q = [0]` the single term is `0/0 = NaN` and the result
is NaN, not the claimed 0. -/
theorem C6_canberra_zero_zero_is_nan :
    CanberraDistance [0] [0] = GoFloat.nan ∧ GoFloat.nan ≠ GoFloat.fin 0 := by
  constructor
  · norm_num [CanberraDistance, goDivNonneg, goAdd]
  · intro h
    exact GoFloat.noConfusion h

/-- C9: the claim (and the Go function's own doc comment, with its example
`lch-5-8.json` for `k = 8` and the 5-part scheme) states the file name is
`lch-<scheme_size>-<k>.<ext>`.  The code formats
`fmt.Sprintf("lch-%d-%d.%s", k, schemeSize, ext)`, i.e. `k` first: for
`k = 8`, scheme size 5, extension `json` it produces `lch-8-5.json`. -/
theorem C9_lchFileName_order_swapped :
    LCHFileName 8 5 "json" = "lch-8-5.json" ∧
    LCHFileNameSpec 8 5 "json" = "lch-5-8.json" ∧
    LCHFileName 8 5 "json" ≠ LCHFileNameSpec 8 5 "json" := by
  refine ⟨by decide, by decide, by decide⟩

/-- C3 counterexample: for the non-empty input rectangle `(0,0)–(2,1)` and a
`FixedNumDivider` with `nx = 5 > 2 = w`, `ny = 1`, `cut = false`, the union
of the returned tiles is NOT the input rectangle: the point `(3, 0)` lies in
tile `[0][3] = (3,0)–(4,1)` but outside the input. -/
theorem C3_cover_counterexample :
    ¬ (∀ x y : ℤ,
      inDivision (FixedNumDivider.Divide ⟨5, 1, false⟩ ⟨0, 0, 2, 1⟩) x y ↔
        Rect.memPt ⟨0, 0, 2, 1⟩ x y) := by
  intro h
  have h2 := (h 3 0).mp (by decide)
  have h3 : ¬ Rect.memPt ⟨0, 0, 2, 1⟩ 3 0 := by decide
  exact h3 h2

/-- C8 counterexample: the input `"a b"` tokenizes to the single token
`a b`; escaping embedded quotes/backslashes and joining with spaces yields
`a b`, which re-tokenizes to the two tokens `a`, `b` — not the original
list. -/
theorem C8_roundtrip_counterexample :
    ParseCommand ['"', 'a', ' ', 'b', '"'] = some [['a', ' ', 'b']] ∧
    ParseCommand (joinTokens [['a', ' ', 'b']]) ≠ some [['a', ' ', 'b']] := by
  constructor
  · rfl
  · decide

/-- C10 counterexample: the loop starts from `math.MaxFloat64`, not `+∞`.
With a single candidate (id 0) whose metric value is exactly
`math.MaxFloat64`, that candidate attains the minimal score, yet the strict
comparison `dist < MaxFloat64` fails and the tile keeps `NoImageID`;
under the claim's `+∞` start the smallest minimal id 0 would win. -/
theorem C10_maxfloat_counterexample :
    minimizeTile [some maxFloat64] = NoImageID ∧ NoImageID ≠ (0 : ℤ) := by
  constructor
  · unfold minimizeTile minimizeLoop
    rw [if_neg (lt_irrefl maxFloat64)]
    rfl
  · decide

theorem quantizeC_eq (c k : ℕ) (hc : c ≤ 255) (hk2 : k ≤ 256) :
    QuantizeC c k = c * k / 256 := by
  unfold QuantizeC QuantizeFactor
  apply Nat.mod_eq_of_lt
  have h1 : c * k ≤ 255 * 256 := Nat.mul_le_mul hc hk2
  have h2 : c * k / 256 ≤ 255 * 256 / 256 := Nat.div_le_div_right h1
  omega

theorem quantizeC_lt (c k : ℕ) (hc : c ≤ 255) (hk1 : 1 ≤ k) (hk2 : k ≤ 256) :
    QuantizeC c k < k := by
  rw [quantizeC_eq c k hc hk2]
  rw [Nat.div_lt_iff_lt_mul (by omega : 0 < 256)]
  calc c * k ≤ 255 * k := Nat.mul_le_mul_right k hc
    _ < 256 * k := by
        have : 0 < k := hk1
        nlinarith
    _ = k * 256 := Nat.mul_comm 256 k

theorem rgbid_digits (r g b k : ℕ) (hk1 : 1 ≤ k) (hr : r < k) (hg : g < k)
    (hb : b < k) :
    RGBID r g b k % k = r ∧ RGBID r g b k / k % k = g ∧
      RGBID r g b k / k / k = b := by
  unfold RGBID
  have hrw : r + k * g + k * k * b = r + k * (g + k * b) := by ring
  rw [hrw]
  have h1 : (r + k * (g + k * b)) % k = r := by
    have := Nat.add_mul_mod_self_left r k (g + k * b)
    rw [this]
    exact Nat.mod_eq_of_lt hr
  have h2 : (r + k * (g + k * b)) / k = g + k * b := by
    rw [Nat.add_mul_div_left r (g + k * b) (by omega : 0 < k)]
    rw [Nat.div_eq_of_lt hr]
    omega
  refine ⟨h1, ?_, ?_⟩
  · rw [h2]
    have := Nat.add_mul_mod_self_left g k b
    rw [this]
    exact Nat.mod_eq_of_lt hg
  · rw [h2]
    rw [Nat.add_mul_div_left g b (by omega : 0 < k)]
    rw [Nat.div_eq_of_lt hg]
    omega

/-- C7: for `k ∈ [1,256]` the quantized component is `⌊c·k/256⌋` (the
`uint8` cast never truncates) and is below `k`; the bin index of a quantized
colour lies in `[0, k³)`; and on triples of quantized components (all below
`k`) the bin index is injective. -/
theorem C7_quantize_bin_index (k : ℕ) (hk1 : 1 ≤ k) (hk2 : k ≤ 256) :
    (∀ c ≤ 255, QuantizeC c k = c * k / 256 ∧ QuantizeC c k < k) ∧
    (∀ r g b : ℕ, r ≤ 255 → g ≤ 255 → b ≤ 255 →
      RGBID (QuantizeC r k) (QuantizeC g k) (QuantizeC b k) k < k ^ 3) ∧
    (∀ r1 g1 b1 r2 g2 b2 : ℕ, r1 < k → g1 < k → b1 < k →
      r2 < k → g2 < k → b2 < k →
      RGBID r1 g1 b1 k = RGBID r2 g2 b2 k →
      r1 = r2 ∧ g1 = g2 ∧ b1 = b2) := by
  refine ⟨?_, ?_, ?_⟩
  · intro c hc
    exact ⟨quantizeC_eq c k hc hk2, quantizeC_lt c k hc hk1 hk2⟩
  · intro r g b hr hg hbb
    have h1 : QuantizeC r k < k := quantizeC_lt r k hr hk1 hk2
    have h2 : QuantizeC g k < k := quantizeC_lt g k hg hk1 hk2
    have h3 : QuantizeC b k < k := quantizeC_lt b k hbb hk1 hk2
    unfold RGBID
    have hcube : k ^ 3 = k * k * k := by ring
    rw [hcube]
    nlinarith
  · intro r1 g1 b1 r2 g2 b2 hr1 hg1 hb1 hr2 hg2 hb2 heq
    obtain ⟨d1r, d1g, d1b⟩ := rgbid_digits r1 g1 b1 k hk1 hr1 hg1 hb1
    obtain ⟨d2r, d2g, d2b⟩ := rgbid_digits r2 g2 b2 k hk1 hr2 hg2 hb2
    refine ⟨?_, ?_, ?_⟩
    · rw [← d1r, ← d2r, heq]
    · rw [← d1g, ← d2g, heq]
    · rw [← d1b, ← d2b, heq]

/-- Witness for C7 at `k = 4`: evaluates the quantizer on concrete
components. -/
theorem C7_quantize_bin_index_witness :
    (1 ≤ 4 ∧ (4 : ℕ) ≤ 256) ∧
    (∀ c ≤ 255, QuantizeC c 4 = c * 4 / 256 ∧ QuantizeC c 4 < 4) ∧
    (∀ r g b : ℕ, r ≤ 255 → g ≤ 255 → b ≤ 255 →
      RGBID (QuantizeC r 4) (QuantizeC g 4) (QuantizeC b 4) 4 < 4 ^ 3) ∧
    (∀ r1 g1 b1 r2 g2 b2 : ℕ, r1 < 4 → g1 < 4 → b1 < 4 →
      r2 < 4 → g2 < 4 → b2 < 4 →
      RGBID r1 g1 b1 4 = RGBID r2 g2 b2 4 →
      r1 = r2 ∧ g1 = g2 ∧ b1 = b2) := by
  have h := C7_quantize_bin_index 4 (by decide) (by decide)
  exact ⟨⟨by decide, by decide⟩, h.1, h.2.1, h.2.2⟩

/-- C4: for every bound `b ≥ 1` and every sequence of pushes, the heap never
panics, holds exactly `min(N, b)` entries — the ones with the `b` smallest
scores seen so far (their sorted scores are the first `b` of the sorted
pushed scores) — and `GetView` lists exactly those entries in ascending
score order. -/
theorem C4_imageHeap_keeps_smallest (b : Int) (es : List ImageHeapEntry)
    (hb : 1 ≤ b) :
    ∃ l view : List ImageHeapEntry,
      runAdds b es = Except.ok (HeapState.live l) ∧
      l.length = min es.length b.toNat ∧
      getView (HeapState.live l) = Except.ok view ∧
      view.Perm l ∧
      List.Pairwise (fun a c => a.value ≤ c.value) view ∧
      view.map ImageHeapEntry.value = (msortQ (entryVals es)).take b.toNat := by
  obtain ⟨l, hrun, hgood⟩ := foldAdds_good b hb es [] 0 (goodHeap_init b)
  rw [zero_add] at hgood
  obtain ⟨hviewperm, hviewsorted⟩ := getViewList_spec l hgood.1
  refine ⟨l, getViewList l, hrun, ?_, rfl, hviewperm, hviewsorted, ?_⟩
  · have := goodHeap_length b l (entryVals es) hgood
    rw [entryVals_card] at this
    omega
  · apply sorted_eq_msortQ _ (entryVals l) _ _ |>.trans
    · rw [hgood.2]
    · exact List.pairwise_map.mpr hviewsorted
    · show ((getViewList l).map ImageHeapEntry.value : Multiset ℚ) = entryVals l
      rw [← Multiset.map_coe]
      unfold entryVals
      rw [Multiset.coe_eq_coe.mpr hviewperm]

/-- Witness for C4: bound 2 and the pushes (id 0, 3), (id 1, 1), (id 2, 2). -/
theorem C4_imageHeap_keeps_smallest_witness :
    (1 : Int) ≤ 2 ∧
    (∃ l view : List ImageHeapEntry,
      runAdds 2 [⟨0, 3⟩, ⟨1, 1⟩, ⟨2, 2⟩] = Except.ok (HeapState.live l) ∧
      l.length = min ([⟨0, 3⟩, ⟨1, 1⟩, ⟨2, 2⟩] : List ImageHeapEntry).length
        (2 : Int).toNat ∧
      getView (HeapState.live l) = Except.ok view ∧
      view.Perm l ∧
      List.Pairwise (fun a c => a.value ≤ c.value) view ∧
      view.map ImageHeapEntry.value =
        (msortQ (entryVals [⟨0, 3⟩, ⟨1, 1⟩, ⟨2, 2⟩])).take (2 : Int).toNat) :=
  ⟨by norm_num, C4_imageHeap_keeps_smallest 2 [⟨0, 3⟩, ⟨1, 1⟩, ⟨2, 2⟩] (by norm_num)⟩

/-- Full characterisation of the candidate scan: the final best value is a
lower bound of the start value and all valid scores, and either no update
happened (result = start pair) or the result id is the FIRST index attaining
the final best value, which strictly improves on the start value. -/
theorem minimizeLoop_spec : ∀ (scores : List (Option ℚ)) (best : ℤ) (bv : ℚ)
    (idx : ℤ),
    ((minimizeLoop best bv idx scores).2 ≤ bv ∧
      (∀ k d, scores.getD k none = some d → (minimizeLoop best bv idx scores).2 ≤ d)) ∧
    (((minimizeLoop best bv idx scores).2 = bv ∧
        (minimizeLoop best bv idx scores).1 = best) ∨
      (∃ k, k < scores.length ∧ ∃ d, scores.getD k none = some d ∧
        d = (minimizeLoop best bv idx scores).2 ∧
        (minimizeLoop best bv idx scores).1 = idx + (k : ℤ) ∧ d < bv ∧
        (∀ k2 e, k2 < k → scores.getD k2 none = some e →
          (minimizeLoop best bv idx scores).2 < e))) := by
  intro scores
  induction scores with
  | nil =>
    intro best bv idx
    refine ⟨⟨le_refl _, ?_⟩, Or.inl ⟨rfl, rfl⟩⟩
    intro k d hk
    simp [List.getD] at hk
  | cons o rest ih =>
    intro best bv idx
    match o with
    | none =>
      have hr : minimizeLoop best bv idx (none :: rest) =
          minimizeLoop best bv (idx + 1) rest := rfl
      obtain ⟨⟨ih1a, ih1b⟩, ih2⟩ := ih best bv (idx + 1)
      rw [hr]
      refine ⟨⟨ih1a, ?_⟩, ?_⟩
      · intro k d hk
        match k with
        | 0 => simp at hk
        | k2 + 1 => exact ih1b k2 d hk
      · rcases ih2 with hleft | ⟨k, hk, d, hgd, hdr, hr1, hdbv, hbef⟩
        · exact Or.inl hleft
        · refine Or.inr ⟨k + 1, by simpa using Nat.succ_lt_succ hk, d, hgd, hdr, ?_,
            hdbv, ?_⟩
          · rw [hr1]
            push_cast
            ring
          · intro k2 e hk2 hge
            match k2 with
            | 0 => simp at hge
            | k3 + 1 => exact hbef k3 e (by omega) hge
    | some d0 =>
      by_cases hlt : d0 < bv
      · have hr : minimizeLoop best bv idx (some d0 :: rest) =
            minimizeLoop idx d0 (idx + 1) rest := by
          have he : minimizeLoop best bv idx (some d0 :: rest) =
              if d0 < bv then minimizeLoop idx d0 (idx + 1) rest
              else minimizeLoop best bv (idx + 1) rest := rfl
          rw [he, if_pos hlt]
        obtain ⟨⟨ih1a, ih1b⟩, ih2⟩ := ih idx d0 (idx + 1)
        rw [hr]
        refine ⟨⟨le_trans ih1a (le_of_lt hlt), ?_⟩, ?_⟩
        · intro k d hk
          match k with
          | 0 =>
            simp at hk
            rw [← hk]
            exact ih1a
          | k2 + 1 => exact ih1b k2 d hk
        · rcases ih2 with ⟨hval, hid⟩ | ⟨k, hk, d, hgd, hdr, hr1, hdbv, hbef⟩
          · refine Or.inr ⟨0, by simp, d0, by simp, hval.symm, ?_, hlt, ?_⟩
            · rw [hid]
              simp
            · intro k2 e hk2 _
              omega
          · refine Or.inr ⟨k + 1, by simpa using Nat.succ_lt_succ hk, d, hgd, hdr, ?_,
              lt_trans hdbv hlt, ?_⟩
            · rw [hr1]
              push_cast
              ring
            · intro k2 e hk2 hge
              match k2 with
              | 0 =>
                simp at hge
                rw [← hge, ← hdr]
                exact hdbv
              | k3 + 1 => exact hbef k3 e (by omega) hge
      · have hr : minimizeLoop best bv idx (some d0 :: rest) =
            minimizeLoop best bv (idx + 1) rest := by
          have he : minimizeLoop best bv idx (some d0 :: rest) =
              if d0 < bv then minimizeLoop idx d0 (idx + 1) rest
              else minimizeLoop best bv (idx + 1) rest := rfl
          rw [he, if_neg hlt]
        obtain ⟨⟨ih1a, ih1b⟩, ih2⟩ := ih best bv (idx + 1)
        rw [hr]
        refine ⟨⟨ih1a, ?_⟩, ?_⟩
        · intro k d hk
          match k with
          | 0 =>
            simp at hk
            rw [← hk]
            exact le_trans ih1a (not_lt.mp hlt)
          | k2 + 1 => exact ih1b k2 d hk
        · rcases ih2 with hleft | ⟨k, hk, d, hgd, hdr, hr1, hdbv, hbef⟩
          · exact Or.inl hleft
          · refine Or.inr ⟨k + 1, by simpa using Nat.succ_lt_succ hk, d, hgd, hdr, ?_,
              hdbv, ?_⟩
            · rw [hr1]
              push_cast
              ring
            · intro k2 e hk2 hge
              match k2 with
              | 0 =>
                simp at hge
                rw [← hge, ← hdr]
                exact lt_of_lt_of_le hdbv (not_lt.mp hlt)
              | k3 + 1 => exact hbef k3 e (by omega) hge

/-- C10 (amended): the per-tile scan starts from `math.MaxFloat64` (not
`+∞`) and updates on strictly smaller scores, so (i) whenever some candidate
scores below `MaxFloat64`, the selected id is the SMALLEST id attaining the
minimal score; (ii) when every candidate scores at least `MaxFloat64` (or
errors), the tile keeps `NoImageID`; and (iii) the whole selection matrix is
the deterministic per-cell map of this scan. -/
theorem C10_minimizer_smallest_id (scores : List (Option ℚ)) :
    ((∃ i d, scores.getD i none = some d ∧ d < maxFloat64) →
      ∃ (i : ℕ) (d : ℚ), minimizeTile scores = (i : ℤ) ∧ i < scores.length ∧
        scores.getD i none = some d ∧ d < maxFloat64 ∧
        (∀ j e, scores.getD j none = some e → d ≤ e) ∧
        (∀ j e, j < i → scores.getD j none = some e → d < e)) ∧
    ((∀ i d, scores.getD i none = some d → maxFloat64 ≤ d) →
      minimizeTile scores = NoImageID) ∧
    (∀ grid : List (List (List (Option ℚ))),
      SelectImagesMinimizer grid = grid.map fun row => row.map minimizeTile) := by
  obtain ⟨⟨h1a, h1b⟩, h2⟩ := minimizeLoop_spec scores NoImageID maxFloat64 0
  refine ⟨?_, ?_, fun _ => rfl⟩
  · rintro ⟨i, d, hgd, hdlt⟩
    rcases h2 with ⟨hval, _⟩ | ⟨k, hk, d2, hgd2, hd2r, hr1, hd2bv, hbef⟩
    · exfalso
      have := h1b i d hgd
      rw [hval] at this
      exact absurd hdlt (not_lt.mpr this)
    · refine ⟨k, d2, ?_, hk, hgd2, hd2bv, ?_, ?_⟩
      · unfold minimizeTile
        rw [hr1]
        simp
      · intro j e hge
        rw [hd2r]
        exact h1b j e hge
      · intro j e hj hge
        rw [hd2r]
        exact hbef j e hj hge
  · intro hall
    rcases h2 with ⟨_, hid⟩ | ⟨k, _, d2, hgd2, _, _, hd2bv, _⟩
    · exact hid
    · exact absurd (hall k d2 hgd2) (not_le.mpr hd2bv)

/-- Witness for C10 at the scores `[5, 3, 3]`: candidate 1 is the smallest
id attaining the minimum 3. -/
theorem C10_minimizer_smallest_id_witness :
    ∃ (i : ℕ) (d : ℚ), minimizeTile [some 5, some 3, some 3] = (i : ℤ) ∧
      i < ([some 5, some 3, some 3] : List (Option ℚ)).length ∧
      ([some 5, some 3, some 3] : List (Option ℚ)).getD i none = some d ∧
      d < maxFloat64 ∧
      (∀ j e, ([some 5, some 3, some 3] : List (Option ℚ)).getD j none = some e →
        d ≤ e) ∧
      (∀ j e, j < i →
        ([some 5, some 3, some 3] : List (Option ℚ)).getD j none = some e →
        d < e) :=
  (C10_minimizer_smallest_id [some 5, some 3, some 3]).1
    ⟨1, 3, rfl, by norm_num [maxFloat64]⟩

/-! ### Tokenizer round-trip lemmas (C8) -/

theorem pcAux_state0_cons (ch : Char) (rest cur : List Char)
    (res : List (List Char)) :
    pcAux (ch :: rest) 0 cur res =
      if ch = ' ' then pcAux rest 0 cur res
      else if ch = '\\' then pcAux rest 2 cur res
      else if ch = '"' then pcAux rest 3 cur res
      else pcAux rest 1 (cur ++ [ch]) res := rfl

theorem pcAux_state1_cons (ch : Char) (rest cur : List Char)
    (res : List (List Char)) :
    pcAux (ch :: rest) 1 cur res =
      if ch = ' ' then pcAux rest 0 [] (res ++ [cur])
      else if ch = '\\' then pcAux rest 2 cur res
      else if ch = '"' then none
      else pcAux rest 1 (cur ++ [ch]) res := rfl

theorem pcAux_state2_cons (ch : Char) (rest cur : List Char)
    (res : List (List Char)) :
    pcAux (ch :: rest) 2 cur res =
      if ch = '\\' ∨ ch = '"' then pcAux rest 1 (cur ++ [ch]) res
      else none := rfl

theorem pcAux_nil_state1 (cur : List Char) (res : List (List Char)) :
    pcAux [] 1 cur res = some (if 0 < cur.length then res ++ [cur] else res) := rfl

/-- Feeding the escape encoding of one non-space character to the automaton
in state 0 or 1 lands in state 1 with the character appended. -/
theorem pcAux_escChar (c : Char) (hc : c ≠ ' ') (st : ℕ) (hst : st = 0 ∨ st = 1)
    (rest cur : List Char) (res : List (List Char)) :
    pcAux (escapeChar c ++ rest) st cur res = pcAux rest 1 (cur ++ [c]) res := by
  by_cases hesc : c = '"' ∨ c = '\\'
  · have he : escapeChar c = ['\\', c] := by rw [escapeChar, if_pos hesc]
    rw [he]
    rcases hst with rfl | rfl
    · rw [List.cons_append, List.cons_append, List.nil_append,
        pcAux_state0_cons, if_neg (by decide), if_pos rfl, pcAux_state2_cons,
        if_pos (Or.symm hesc)]
    · rw [List.cons_append, List.cons_append, List.nil_append,
        pcAux_state1_cons, if_neg (by decide), if_pos rfl, pcAux_state2_cons,
        if_pos (Or.symm hesc)]
  · have he : escapeChar c = [c] := by rw [escapeChar, if_neg hesc]
    rw [he]
    push_neg at hesc
    rcases hst with rfl | rfl
    · rw [List.cons_append, List.nil_append, pcAux_state0_cons, if_neg hc,
        if_neg hesc.2, if_neg hesc.1]
    · rw [List.cons_append, List.nil_append, pcAux_state1_cons, if_neg hc,
        if_neg hesc.2, if_neg hesc.1]

/-- Feeding a whole escaped space-free token in state 1 appends the token to
the current argument. -/
theorem pcAux_escToken_state1 : ∀ (t : List Char), ' ' ∉ t →
    ∀ (rest cur : List Char) (res : List (List Char)),
    pcAux (escapeToken t ++ rest) 1 cur res = pcAux rest 1 (cur ++ t) res := by
  intro t
  induction t with
  | nil =>
    intro _ rest cur res
    simp [escapeToken]
  | cons c t2 ih =>
    intro hsp rest cur res
    have hc : c ≠ ' ' := fun hcc => hsp (hcc ▸ List.mem_cons_self c t2)
    have hsp2 : ' ' ∉ t2 := fun hm => hsp (List.mem_cons_of_mem c hm)
    have he : escapeToken (c :: t2) = escapeChar c ++ escapeToken t2 := by
      simp [escapeToken]
    rw [he, List.append_assoc,
      pcAux_escChar c hc 1 (Or.inr rfl) (escapeToken t2 ++ rest) cur res,
      ih hsp2 rest (cur ++ [c]) res]
    simp

/-- Feeding a non-empty escaped space-free token in state 0 with an empty
current argument lands in state 1 holding exactly the token. -/
theorem pcAux_escToken_state0 (t : List Char) (hne : t ≠ []) (hsp : ' ' ∉ t)
    (rest : List Char) (res : List (List Char)) :
    pcAux (escapeToken t ++ rest) 0 [] res = pcAux rest 1 t res := by
  match t, hne with
  | c :: t2, _ =>
    have hc : c ≠ ' ' := fun hcc => hsp (hcc ▸ List.mem_cons_self c t2)
    have hsp2 : ' ' ∉ t2 := fun hm => hsp (List.mem_cons_of_mem c hm)
    have he : escapeToken (c :: t2) = escapeChar c ++ escapeToken t2 := by
      simp [escapeToken]
    rw [he, List.append_assoc,
      pcAux_escChar c hc 0 (Or.inl rfl) (escapeToken t2 ++ rest) [] res,
      pcAux_escToken_state1 t2 hsp2 rest ([] ++ [c]) res]
    simp

/-- Parsing the escaped-and-joined encoding of any list of non-empty
space-free tokens emits exactly those tokens (after any already-emitted
ones). -/
theorem pcAux_joinTokens : ∀ (ts : List (List Char)),
    (∀ t ∈ ts, t ≠ [] ∧ ' ' ∉ t) → ∀ (res : List (List Char)),
    pcAux (joinTokens ts) 0 [] res = some (res ++ ts) := by
  intro ts
  induction ts with
  | nil =>
    intro _ res
    simp [joinTokens, pcAux]
  | cons t ts2 ih =>
    intro hT res
    obtain ⟨hne, hsp⟩ := hT t (List.mem_cons_self t ts2)
    have hT2 : ∀ u ∈ ts2, u ≠ [] ∧ ' ' ∉ u := fun u hu =>
      hT u (List.mem_cons_of_mem t hu)
    match ts2, hT2, ih with
    | [], _, _ =>
      have hj : joinTokens [t] = escapeToken t := rfl
      rw [hj, ← List.append_nil (escapeToken t),
        pcAux_escToken_state0 t hne hsp [] res, pcAux_nil_state1,
        if_pos (by cases t with | nil => exact absurd rfl hne | cons a b => simp)]
    | u :: us, hT2, ih =>
      have hj : joinTokens (t :: u :: us) =
          escapeToken t ++ ' ' :: joinTokens (u :: us) := rfl
      rw [hj, pcAux_escToken_state0 t hne hsp _ res, pcAux_state1_cons,
        if_pos rfl, ih hT2 (res ++ [t])]
      simp

/-- C8 (amended): for every accepted input whose tokens are all non-empty and
contain no space, escaping embedded quotes and backslashes and joining the
tokens with single spaces re-tokenizes to exactly the original token list.
(The restriction is forced: a token containing a space — e.g. from input
`"a b"` — or an empty token from `""` breaks the round-trip, see the
counterexample.) -/
theorem C8_tokenizer_roundtrip (s : List Char) (ts : List (List Char))
    (hp : ParseCommand s = some ts) (hT : ∀ t ∈ ts, t ≠ [] ∧ ' ' ∉ t) :
    ParseCommand (joinTokens ts) = some ts := by
  unfold ParseCommand
  rw [pcAux_joinTokens ts hT []]
  rfl

/-- Witness for C8: the input `ab cd` tokenizes to `[ab, cd]`, whose
re-encoding parses back to the same list. -/
theorem C8_tokenizer_roundtrip_witness :
    ParseCommand ['a', 'b', ' ', 'c', 'd'] = some [['a', 'b'], ['c', 'd']] ∧
    (∀ t ∈ [['a', 'b'], ['c', 'd']], t ≠ ([] : List Char) ∧ ' ' ∉ t) ∧
    ParseCommand (joinTokens [['a', 'b'], ['c', 'd']]) =
      some [['a', 'b'], ['c', 'd']] :=
  ⟨by decide, by decide,
    C8_tokenizer_roundtrip ['a', 'b', ' ', 'c', 'd'] [['a', 'b'], ['c', 'd']]
      (by decide) (by decide)⟩

/-! ### Fixed-count divider covering lemmas (C3) -/

theorem fixedNumTileDim_max (imgDim : ℤ) (num : ℕ) (h1 : 1 ≤ num)
    (h0 : 1 ≤ imgDim) :
    fixedNumTileDim imgDim num = max 1 (imgDim / (num : ℤ)) := by
  unfold fixedNumTileDim
  rw [if_pos (by omega : 0 < num)]
  have hq : 0 ≤ imgDim / (num : ℤ) :=
    Int.ediv_nonneg (by omega) (by positivity)
  by_cases hle : imgDim / (num : ℤ) ≤ 0
  · rw [if_pos hle]
    omega
  · rw [if_neg hle]
    omega

/-- The tile dimension is at least 1, and as long as `num ≤ imgDim + 1` the
first `num - 1` tiles of that dimension fit inside the image (for
`num ≤ imgDim` because `(num-1)·⌊imgDim/num⌋ ≤ imgDim − ⌊imgDim/num⌋`, and
for `num = imgDim + 1` because the dimension is forced to 1). -/
theorem fixedNumTileDim_pred_le (imgDim : ℤ) (num : ℕ) (h1 : 1 ≤ num)
    (h0 : 1 ≤ imgDim) (h2 : (num : ℤ) ≤ imgDim + 1) :
    ((num : ℤ) - 1) * fixedNumTileDim imgDim num ≤ imgDim ∧
      1 ≤ fixedNumTileDim imgDim num := by
  have hpos : (0 : ℤ) < (num : ℤ) := by exact_mod_cast h1
  unfold fixedNumTileDim
  rw [if_pos (by omega : 0 < num)]
  by_cases hq : imgDim / (num : ℤ) ≤ 0
  · rw [if_pos hq]
    constructor
    · omega
    · omega
  · rw [if_neg hq]
    have hmul : imgDim / (num : ℤ) * (num : ℤ) ≤ imgDim :=
      Int.ediv_mul_le imgDim (by omega)
    constructor
    · nlinarith
    · omega

/-- 1-D covering: `n` consecutive tiles of width `t ≥ 1` starting at `s`,
with the last one stretched to `e`, tile `[s, e)` exactly whenever
`(n−1)·t ≤ e − s` (the last tile may be empty). -/
theorem cover1D (s e : ℤ) (n : ℕ) (t : ℤ) (hn : 1 ≤ n) (ht : 1 ≤ t)
    (hnt : ((n : ℤ) - 1) * t ≤ e - s) (x : ℤ) :
    (∃ j : ℕ, j < n ∧ s + (j : ℤ) * t ≤ x ∧
      x < (if j + 1 = n then e else s + (j : ℤ) * t + t)) ↔
    (s ≤ x ∧ x < e) := by
  constructor
  · rintro ⟨j, hj, hlo, hhi⟩
    constructor
    · have : (0 : ℤ) ≤ (j : ℤ) * t := by positivity
      omega
    · by_cases hlast : j + 1 = n
      · rw [if_pos hlast] at hhi
        exact hhi
      · rw [if_neg hlast] at hhi
        have hjn : (j : ℤ) + 1 ≤ (n : ℤ) - 1 := by
          have : j + 1 < n := by omega
          exact_mod_cast by omega
        have hmul : ((j : ℤ) + 1) * t ≤ ((n : ℤ) - 1) * t :=
          mul_le_mul_of_nonneg_right hjn (by omega)
        nlinarith
  · rintro ⟨hs, he⟩
    set d := x - s with hd
    have hd0 : 0 ≤ d := by omega
    have hde : d < e - s := by omega
    have htpos : (0 : ℤ) < t := by omega
    set q := d / t with hq
    have hq0 : 0 ≤ q := Int.ediv_nonneg hd0 (by omega)
    have hqt : q * t ≤ d := by
      have := Int.ediv_mul_le d (show t ≠ 0 by omega)
      exact this
    by_cases hqn : q ≤ (n : ℤ) - 1
    · refine ⟨q.toNat, ?_, ?_, ?_⟩
      · have := Int.toNat_of_nonneg hq0
        omega
      · rw [Int.toNat_of_nonneg hq0]
        omega
      · by_cases hlast : q.toNat + 1 = n
        · rw [if_pos hlast]
          exact he
        · rw [if_neg hlast, Int.toNat_of_nonneg hq0]
          have := Int.lt_ediv_add_one_mul_self d htpos
          nlinarith
    · refine ⟨n - 1, by omega, ?_, ?_⟩
      · have hcast : ((n - 1 : ℕ) : ℤ) = (n : ℤ) - 1 := by
          have : (1 : ℕ) ≤ n := hn
          push_cast [Nat.cast_sub this]
          ring
        rw [hcast]
        have hqget : (n : ℤ) ≤ q := by omega
        have h1 : (n : ℤ) * t ≤ q * t :=
          mul_le_mul_of_nonneg_right hqget (by omega)
        nlinarith
      · rw [if_pos (by omega)]
        exact he

theorem mkRect_of_le (x0 y0 x1 y1 : ℤ) (hx : x0 ≤ x1) (hy : y0 ≤ y1) :
    mkRect x0 y0 x1 y1 = ⟨x0, y0, x1, y1⟩ := by
  unfold mkRect
  rw [if_neg (not_lt.mpr hx), if_neg (not_lt.mpr hx), if_neg (not_lt.mpr hy),
    if_neg (not_lt.mpr hy)]

/-- C3 (amended): on non-empty input with `nx, ny ≥ 1` and `cut = false`, the
tile width/height are always `max(1, ⌊w/nx⌋)` / `max(1, ⌊h/ny⌋)`; and
whenever `nx ≤ w + 1` and `ny ≤ h + 1` the union of the returned tile
rectangles equals the input rectangle (at `nx = w + 1` the forced tile
width 1 makes the last column empty, so equality still holds; the
counterexample shows it fails for larger `nx`). -/
theorem C3_fixedNumDivider_cover (bounds : Rect) (nx ny : ℕ)
    (hne : ¬ bounds.IsEmpty) (hnx : 1 ≤ nx) (hny : 1 ≤ ny) :
    fixedNumTileDim bounds.Dx nx = max 1 (bounds.Dx / (nx : ℤ)) ∧
    fixedNumTileDim bounds.Dy ny = max 1 (bounds.Dy / (ny : ℤ)) ∧
    ((nx : ℤ) ≤ bounds.Dx + 1 → (ny : ℤ) ≤ bounds.Dy + 1 →
      ∀ x y : ℤ,
        inDivision (FixedNumDivider.Divide ⟨nx, ny, false⟩ bounds) x y ↔
          bounds.memPt x y) := by
  have hne2 : bounds.minX < bounds.maxX ∧ bounds.minY < bounds.maxY := by
    unfold Rect.IsEmpty at hne
    push_neg at hne
    exact hne
  have hDx : bounds.Dx = bounds.maxX - bounds.minX := rfl
  have hDy : bounds.Dy = bounds.maxY - bounds.minY := rfl
  have hwpos : 1 ≤ bounds.Dx := by omega
  have hhpos : 1 ≤ bounds.Dy := by omega
  refine ⟨fixedNumTileDim_max _ _ hnx hwpos, fixedNumTileDim_max _ _ hny hhpos, ?_⟩
  intro hx1 hy1 x y
  obtain ⟨hmulx, htw1b⟩ := fixedNumTileDim_pred_le bounds.Dx nx hnx hwpos hx1
  obtain ⟨hmuly, hth1b⟩ := fixedNumTileDim_pred_le bounds.Dy ny hny hhpos hy1
  set tw := fixedNumTileDim bounds.Dx nx with htwdef
  set th := fixedNumTileDim bounds.Dy ny with hthdef
  -- the cell rectangles, already in canonical (non-swapped) form
  have hxedge : ∀ j : ℕ, j < nx →
      bounds.minX + (j : ℤ) * tw ≤
        (if j + 1 = nx then bounds.maxX else bounds.minX + (j : ℤ) * tw + tw) := by
    intro j hj
    by_cases hlast : j + 1 = nx
    · rw [if_pos hlast]
      have hjz : (j : ℤ) = (nx : ℤ) - 1 := by
        have : j = nx - 1 := by omega
        subst this
        push_cast [Nat.cast_sub hnx]
        ring
      rw [hjz]
      omega
    · rw [if_neg hlast]
      omega
  have hyedge : ∀ i : ℕ, i < ny →
      bounds.minY + (i : ℤ) * th ≤
        (if i + 1 = ny then bounds.maxY else bounds.minY + (i : ℤ) * th + th) := by
    intro i hi
    by_cases hlast : i + 1 = ny
    · rw [if_pos hlast]
      have hiz : (i : ℤ) = (ny : ℤ) - 1 := by
        have : i = ny - 1 := by omega
        subst this
        push_cast [Nat.cast_sub hny]
        ring
      rw [hiz]
      omega
    · rw [if_neg hlast]
      omega
  have hdiv : FixedNumDivider.Divide ⟨nx, ny, false⟩ bounds =
      (List.range ny).map (fun (i : ℕ) => (List.range nx).map (fun (j : ℕ) =>
        mkRect (bounds.minX + (j : ℤ) * tw) (bounds.minY + (i : ℤ) * th)
          (if j + 1 = nx then bounds.maxX else bounds.minX + (j : ℤ) * tw + tw)
          (if i + 1 = ny then bounds.maxY else bounds.minY + (i : ℤ) * th + th))) := by
    unfold FixedNumDivider.Divide FixedNumDivider.outerBound
    rw [if_neg hne]
    rfl
  have hstep : inDivision (FixedNumDivider.Divide ⟨nx, ny, false⟩ bounds) x y ↔
      ∃ i : ℕ, i < ny ∧ ∃ j : ℕ, j < nx ∧
        (bounds.minX + (j : ℤ) * tw ≤ x ∧
          x < (if j + 1 = nx then bounds.maxX
               else bounds.minX + (j : ℤ) * tw + tw)) ∧
        (bounds.minY + (i : ℤ) * th ≤ y ∧
          y < (if i + 1 = ny then bounds.maxY
               else bounds.minY + (i : ℤ) * th + th)) := by
    rw [hdiv]
    constructor
    · rintro ⟨row, hrow, r, hr, hmem⟩
      obtain ⟨i, hi, hfi⟩ := List.mem_map.mp hrow
      obtain ⟨j, hj, hgj⟩ := List.mem_map.mp (hfi ▸ hr)
      have hi2 : i < ny := List.mem_range.mp hi
      have hj2 : j < nx := List.mem_range.mp hj
      rw [← hgj, mkRect_of_le _ _ _ _ (hxedge j hj2) (hyedge i hi2)] at hmem
      obtain ⟨m1, m2, m3, m4⟩ := hmem
      exact ⟨i, hi2, j, hj2, ⟨m1, m2⟩, ⟨m3, m4⟩⟩
    · rintro ⟨i, hi, j, hj, ⟨m1, m2⟩, ⟨m3, m4⟩⟩
      refine ⟨_, List.mem_map_of_mem _ (List.mem_range.mpr hi),
        _, List.mem_map_of_mem _ (List.mem_range.mpr hj), ?_⟩
      rw [mkRect_of_le _ _ _ _ (hxedge j hj) (hyedge i hi)]
      exact ⟨m1, m2, m3, m4⟩
  rw [hstep]
  have hx := cover1D bounds.minX bounds.maxX nx tw hnx htw1b (by omega) x
  have hy := cover1D bounds.minY bounds.maxY ny th hny hth1b (by omega) y
  constructor
  · rintro ⟨i, hi, j, hj, hxc, hyc⟩
    have h1 := hx.mp ⟨j, hj, hxc.1, hxc.2⟩
    have h2 := hy.mp ⟨i, hi, hyc.1, hyc.2⟩
    exact ⟨h1.1, h1.2, h2.1, h2.2⟩
  · rintro ⟨p1, p2, p3, p4⟩
    obtain ⟨j, hj, hj1, hj2⟩ := hx.mpr ⟨p1, p2⟩
    obtain ⟨i, hi, hi1, hi2⟩ := hy.mpr ⟨p3, p4⟩
    exact ⟨i, hi, j, hj, ⟨hj1, hj2⟩, ⟨hi1, hi2⟩⟩

/-- Witness for C3: the square `(0,0)–(10,10)` divided 3×3 without cutting
(the spec's "tiling arithmetic" scenario). -/
theorem C3_fixedNumDivider_cover_witness :
    (¬ Rect.IsEmpty ⟨0, 0, 10, 10⟩) ∧ (1 ≤ 3) ∧
    ((3 : ℤ) ≤ Rect.Dx ⟨0, 0, 10, 10⟩ + 1) ∧
    (fixedNumTileDim (Rect.Dx ⟨0, 0, 10, 10⟩) 3 =
      max 1 (Rect.Dx ⟨0, 0, 10, 10⟩ / (3 : ℤ)) ∧
    fixedNumTileDim (Rect.Dy ⟨0, 0, 10, 10⟩) 3 =
      max 1 (Rect.Dy ⟨0, 0, 10, 10⟩ / (3 : ℤ)) ∧
    ((3 : ℤ) ≤ Rect.Dx ⟨0, 0, 10, 10⟩ + 1 → (3 : ℤ) ≤ Rect.Dy ⟨0, 0, 10, 10⟩ + 1 →
      ∀ x y : ℤ,
        inDivision (FixedNumDivider.Divide ⟨3, 3, false⟩ ⟨0, 0, 10, 10⟩) x y ↔
          Rect.memPt ⟨0, 0, 10, 10⟩ x y)) :=
  ⟨by decide, by decide, by decide,
    C3_fixedNumDivider_cover ⟨0, 0, 10, 10⟩ 3 3 (by decide) (by decide) (by decide)⟩

end Gomosaic
